import Mathlib

/-!
sheaf: image rewriting in manifests and image discovery.

A shallow embedding of

* `pkg/sheaf/image_replacer.go` (`replaceImage` and the three structural
  predicates it is built from),
* `pkg/json/container.go` (`FindImages`) and `pkg/sheaf/container.go`
  (`ContainerImages`, `filterEmpty`).

Libraries the Go code imports (`gopkg.in/yaml.v3`, `go-yit`,
`image-relocation/pkg/image`, the Kubernetes decoder and `jsonpath`) are
represented by the part of their behaviour the code relies on; what they
compute from text (tag resolution, reference parsing, decoding, encoding) is
a parameter of the definitions below.
-/

namespace Sheaf

/-! ## yaml.v3 nodes -/

/-- The kinds of `yaml.Node`; `Unset` is the zero value, the kind of the node
`yaml.Unmarshal` leaves untouched for an empty input. -/
inductive Kind where
  | Unset
  | DocumentNode
  | SequenceNode
  | MappingNode
  | ScalarNode
  | AliasNode
deriving DecidableEq, Repr

/-- The fields of `yaml.Node` other than `Value` and `Content`.  (`Alias`, a
pointer to the anchored node, is left out: nothing in this program follows
it.) -/
structure Attrs where
  Kind : Kind
  Style : Nat
  Tag : String
  Anchor : String
  HeadComment : String
  LineComment : String
  FootComment : String
  Line : Nat
  Column : Nat
deriving DecidableEq, Repr

/-- A `yaml.Node`: its attributes, its text and its children.  For a mapping
node the children alternate key, value, key, value, ... -/
inductive Node where
  | mk (attrs : Attrs) (Value : String) (Content : List Node) : Node

/-- The attributes of a node. -/
def Node.attrs : Node → Attrs
  | .mk a _ _ => a

/-- The text of a node (`node.Value`). -/
def Node.Value : Node → String
  | .mk _ v _ => v

/-- The children of a node (`node.Content`). -/
def Node.Content : Node → List Node
  | .mk _ _ cs => cs

/-- The kind of a node (`node.Kind`). -/
def Node.Kind (n : Node) : Kind := n.attrs.Kind

/-- A pointer to a node of the document being rewritten, as the list of child
indices that leads to it from the node the walk started at. -/
abbrev Path := List Nat

/-- Dereference a pointer. -/
def Node.get? : Node → Path → Option Node
  | n, [] => some n
  | n, i :: p => match n.Content[i]? with
    | some c => c.get? p
    | none => none

/-- The assignment `node.Value = f(node.Value)` through a pointer. -/
def Node.modifyValue : Node → Path → (String → String) → Node
  | .mk a v cs, [], f => .mk a (f v) cs
  | .mk a v cs, i :: p, f => .mk a v (cs.modify (fun c => c.modifyValue p f) i)

/-! ## go-yit iterators and predicates

An iterator is represented by the list of (pointer, node) it yields, in the
order it yields them. -/

/-- The type `yit.Predicate`. -/
abbrev Predicate := Node → Bool

/-- The type `yit.Iterator`. -/
abbrev Iterator := List (Path × Node)

/-- The result of `node.ShortTag()` on a scalar node, computed by yaml.v3
from the node's own fields (its tag and style, and for an untagged plain
scalar the tag its text resolves to). -/
abbrev TagFn := Attrs → String → String

/-- The iterator `yit.FromNode`. -/
def FromNode (n : Node) : Iterator := [([], n)]

/-- The predicate `yit.All`. -/
def All : Predicate := fun _ => true

/-- The predicate `yit.Intersect`: the first failing predicate decides. -/
def Intersect (ps : List Predicate) : Predicate := fun n => ps.all (fun p => p n)

/-- The predicate `yit.WithKind`. -/
def WithKind (k : Kind) : Predicate := fun n => decide (n.Kind = k)

/-- The predicate `yit.WithValue`. -/
def WithValue (value : String) : Predicate := fun n => decide (n.Value = value)

/-- The predicate `yit.WithShortTag`. -/
def WithShortTag (shortTag : TagFn) (tag : String) : Predicate :=
  fun n => decide (shortTag n.attrs n.Value = tag)

/-- The predicate `yit.StringValue`: a scalar whose short tag is `!!str`. -/
def StringValue (shortTag : TagFn) : Predicate :=
  Intersect [WithKind Kind.ScalarNode, WithShortTag shortTag "!!str"]

/-- The predicate `yit.WithStringValue`. -/
def WithStringValue (shortTag : TagFn) (value : String) : Predicate :=
  Intersect [StringValue shortTag, fun n => decide (n.Value = value)]

/-- The entries of a mapping's `Content`, read two at a time as
`ValuesForMap` does: the index of the value, the key, the value.  yaml.v3
builds mapping nodes with an even number of children; a last key without a
value, on which the Go loop would index out of range, gives no entry here. -/
def mapEntries : Nat → List Node → List (Nat × Node × Node)
  | i, k :: v :: rest => (i + 1, k, v) :: mapEntries (i + 2) rest
  | _, _ => []

/-- The children of a node with their indices. -/
def children : Nat → List Node → List (Nat × Node)
  | _, [] => []
  | i, c :: cs => (i, c) :: children (i + 1) cs

/-- The iterator `Iterator.Filter`. -/
def Iterator.Filter (it : Iterator) (p : Predicate) : Iterator :=
  it.filter (fun x => p x.2)

/-- The test `Iterator.AnyMatch`. -/
def Iterator.AnyMatch (it : Iterator) (p : Predicate) : Bool :=
  !(it.Filter p).isEmpty

/-- The iterator `Iterator.Values`: the children of every node yielded.  (This
program only reaches it on sequence nodes.) -/
def Iterator.Values (it : Iterator) : Iterator :=
  it.flatMap (fun x => (children 0 x.2.Content).map (fun c => (x.1 ++ [c.1], c.2)))

/-- The iterator `Iterator.ValuesForMap`: for every mapping node yielded that
has children, the values of the entries whose key and value pass the two
predicates. -/
def Iterator.ValuesForMap (it : Iterator) (keyPredicate valuePredicate : Predicate) :
    Iterator :=
  it.flatMap (fun x =>
    if x.2.Kind = Kind.MappingNode ∧ 0 < x.2.Content.length then
      (mapEntries 0 x.2.Content).filterMap (fun e =>
        if keyPredicate e.2.1 && valuePredicate e.2.2 then some (x.1 ++ [e.1], e.2.2)
        else none)
    else [])

mutual
/-- The walk of `Iterator.RecurseNodes` from one node: the node, then its
descendants, depth first, children in order. -/
def recurse : Path → Node → Iterator
  | p, .mk a v cs => (p, .mk a v cs) :: recurseList p 0 cs
/-- The walk through a list of children, from index `i` on. -/
def recurseList : Path → Nat → List Node → Iterator
  | _, _, [] => []
  | p, i, c :: cs => recurse (p ++ [i]) c ++ recurseList p (i + 1) cs
end

/-- The iterator `Iterator.RecurseNodes`. -/
def Iterator.RecurseNodes (it : Iterator) : Iterator :=
  it.flatMap (fun x => recurse x.1 x.2)

/-- The predicate `yit.WithMapKeyValue`. -/
def WithMapKeyValue (keyPredicate valuePredicate : Predicate) : Predicate :=
  fun n => ((FromNode n).ValuesForMap keyPredicate valuePredicate).AnyMatch All

/-! ## pkg/sheaf/image_replacer.go -/

/-- The predicate `WithNestedValue`. -/
def WithNestedValue (p : Predicate) : Predicate :=
  fun n => ((FromNode n).Values).AnyMatch p

/-- The predicate `containerPredicate`. -/
def containerPredicate (shortTag : TagFn) : Predicate :=
  Intersect [
    WithKind Kind.SequenceNode,
    WithNestedValue (WithMapKeyValue (WithStringValue shortTag "image") (StringValue shortTag))]

/-- The predicate `specPredicate`. -/
def specPredicate (shortTag : TagFn) : Predicate :=
  Intersect [
    WithKind Kind.MappingNode,
    WithMapKeyValue (WithValue "containers") (containerPredicate shortTag)]

/-- The predicate `podSpecPredicate`. -/
def podSpecPredicate (shortTag : TagFn) : Predicate :=
  Intersect [
    WithKind Kind.MappingNode,
    WithMapKeyValue (WithValue "spec") (specPredicate shortTag)]

/-- The iterator `imageit` of `replaceImage`, from one pod spec, on a
document nothing is written to meanwhile. -/
def imageit (shortTag : TagFn) (podspec : Node) : Iterator :=
  ((((FromNode podspec).ValuesForMap (WithStringValue shortTag "spec")
        (specPredicate shortTag)).ValuesForMap (WithStringValue shortTag "containers")
        (containerPredicate shortTag)).Values).ValuesForMap
    (WithStringValue shortTag "image") (StringValue shortTag)

/-- The two inner loops of `replaceImage` on the text of one image scalar:
for every pair of the map, in the order given, and every synonym of the old
name, the text is replaced by the new name when it equals the synonym.  The
comparison reads the text as it is at that moment. -/
def replaceValue {Name : Type} (str : Name → String) (synonyms : Name → List Name)
    (pairs : List (Name × Name)) (value : String) : String :=
  pairs.foldl (fun v pr =>
    (synonyms pr.1).foldl (fun w oi => if w = str oi then str pr.2 else w) v) value

/-- The state of the outer loop of `replaceImage`: the document as written
so far, and the pointers `imageit` has yielded so far. -/
abbrev WalkState := Node × List Path

/-- The body of the innermost loop of `replaceImage` for the image scalar
`q` points at: the text is rewritten, and the pointer recorded.  `imageMap q`
is the content of the Go map in the order `range` delivers it at this
scalar: Go fixes no order and may take another one at every scalar. -/
def writeImage {Name : Type} (str : Name → String) (synonyms : Name → List Name)
    (imageMap : Path → List (Name × Name)) (s : WalkState) (q : Path) : WalkState :=
  (s.1.modifyValue q (replaceValue str synonyms (imageMap q)), s.2 ++ [q])

/-- A loop over `ValuesForMap` from the node `q` points at.  The iterator is
pulled between the runs of the body, so the predicates read every key and
value in the document as the body has left it by then. -/
def eachValueForMap (keyPredicate valuePredicate : Predicate)
    (body : WalkState → Path → WalkState) (s : WalkState) (q : Path) : WalkState :=
  match s.1.get? q with
  | none => s
  | some parent =>
    if parent.Kind = Kind.MappingNode ∧ 0 < parent.Content.length then
      (mapEntries 0 parent.Content).foldl (fun t e =>
        match t.1.get? (q ++ [e.1 - 1]), t.1.get? (q ++ [e.1]) with
        | some key, some value =>
          if keyPredicate key && valuePredicate value then body t (q ++ [e.1]) else t
        | _, _ => t) s
    else s

/-- A loop over `Values` from the node `q` points at. -/
def eachValue (body : WalkState → Path → WalkState) (s : WalkState) (q : Path) : WalkState :=
  match s.1.get? q with
  | none => s
  | some parent => (children 0 parent.Content).foldl (fun t c => body t (q ++ [c.1])) s

/-- One round of the outer loop of `replaceImage`, for the node `p` points
at.  Both `it` and `imageit` are pulled lazily: `podSpecPredicate` reads the
document as the earlier rounds left it, and every predicate of `imageit`
reads it as the writes made so far left it. -/
def visit {Name : Type} (shortTag : TagFn) (str : Name → String)
    (synonyms : Name → List Name) (imageMap : Path → List (Name × Name))
    (s : WalkState) (p : Path) : WalkState :=
  match s.1.get? p with
  | none => s
  | some podspec =>
    if podSpecPredicate shortTag podspec then
      eachValueForMap (WithStringValue shortTag "spec") (specPredicate shortTag)
        (eachValueForMap (WithStringValue shortTag "containers") (containerPredicate shortTag)
          (eachValue
            (eachValueForMap (WithStringValue shortTag "image") (StringValue shortTag)
              (writeImage str synonyms imageMap)))) s p
    else s

/-- The outer loop of `replaceImage` over `yit.FromNode(&doc).RecurseNodes()`. -/
def walk {Name : Type} (shortTag : TagFn) (str : Name → String)
    (synonyms : Name → List Name) (imageMap : Path → List (Name × Name))
    (doc : Node) : WalkState :=
  (((FromNode doc).RecurseNodes).map Prod.fst).foldl
    (visit shortTag str synonyms imageMap) (doc, [])

/-- The document tree `replaceImage` hands to `yaml.Marshal`. -/
def rewriteTree {Name : Type} (shortTag : TagFn) (str : Name → String)
    (synonyms : Name → List Name) (imageMap : Path → List (Name × Name))
    (doc : Node) : Node :=
  (walk shortTag str synonyms imageMap doc).1

/-- The image scalars `replaceImage` reaches (the pointers `imageit` yields
over the whole run), in the order it reaches them. -/
def locatedImages {Name : Type} (shortTag : TagFn) (str : Name → String)
    (synonyms : Name → List Name) (imageMap : Path → List (Name × Name))
    (doc : Node) : List Path :=
  (walk shortTag str synonyms imageMap doc).2

/-- How a call of `replaceImage` ends: it returns bytes, or it panics.  The
function has no error result. -/
inductive Outcome where
  | returned (out : List UInt8)
  | panicked (err : String)
deriving DecidableEq, Repr

/-- The function `replaceImage`.  `Unmarshal` and `Marshal` are yaml.v3's. -/
def replaceImage {Name : Type} (Unmarshal : List UInt8 → Except String Node)
    (Marshal : Node → Except String (List UInt8)) (shortTag : TagFn)
    (str : Name → String) (synonyms : Name → List Name)
    (manifest : List UInt8) (imageMap : Path → List (Name × Name)) : Outcome :=
  match Unmarshal manifest with
  | .error err => .panicked err
  | .ok doc =>
    match Marshal (rewriteTree shortTag str synonyms imageMap doc) with
    | .error err => .panicked err
    | .ok out => .returned out


/-! ## auxiliary definitions -/

/-- Writing through a list of pointers, one after the other. -/
def writeAll {Name : Type} (str : Name → String) (synonyms : Name → List Name)
    (imageMap : Path → List (Name × Name)) (ps : List Path) (doc : Node) : Node :=
  ps.foldl (fun d p => d.modifyValue p (replaceValue str synonyms (imageMap p))) doc

mutual
/-- The image scalars of a tree, read off the tree as it is. -/
def imageFields (shortTag : TagFn) : Node → List Path
  | .mk a v cs =>
    (if podSpecPredicate shortTag (.mk a v cs) then (imageit shortTag (.mk a v cs)).map Prod.fst
      else []) ++ imageFieldsList shortTag 0 cs
/-- The image scalars below a list of children, from index `i` on. -/
def imageFieldsList (shortTag : TagFn) : Nat → List Node → List Path
  | _, [] => []
  | i, c :: cs => (imageFields shortTag c).map (fun p => i :: p) ++ imageFieldsList shortTag (i + 1) cs
end

/-- Two lists related item by item, by `R0` at the even positions and `R1`
at the odd positions. -/
def altRel (R0 R1 : Node → Node → Prop) : List Node → List Node → Prop
  | [], [] => True
  | a :: as, b :: bs => R0 a b ∧ altRel R1 R0 as bs
  | _, _ => False

/-- The tree `X` is the tree `O` up to the text of nodes less than `n` levels
down that are the value of a mapping entry (the root counts as one when
`v` holds). -/
def Agree : Nat → Bool → Node → Node → Prop
  | 0, _, X, O => X = O
  | n + 1, v, X, O =>
    X.attrs = O.attrs ∧ (v = true ∨ X.Value = O.Value) ∧
      altRel (Agree n false) (Agree n (decide (O.Kind = Kind.MappingNode))) X.Content O.Content

/-- Two iterators yield the same pointers, to nodes that agree. -/
def ItRel (n : Nat) (it1 it2 : Iterator) : Prop :=
  List.Forall₂ (fun x y => x.1 = y.1 ∧ ∃ v, Agree n v x.2 y.2) it1 it2

/-- The pointer `q` leads, from `O`, to the value of a mapping entry (to `O`
itself when `q` is empty and `v` holds). -/
def ValPath : Bool → Node → Path → Prop
  | v, _, [] => v = true
  | _, O, i :: q =>
    ∃ c, O.Content[i]? = some c ∧
      ValPath (decide (O.Kind = Kind.MappingNode) && decide (i % 2 = 1)) c q

/-- The node `m` is a mapping, and its child `i` is the value of an entry
whose key is a string scalar with the text `key`. -/
def HasEntry (shortTag : TagFn) (m : Node) (key : String) (i : Nat) (value : Node) : Prop :=
  m.Kind = Kind.MappingNode ∧
    ∃ t k, i = 2 * t + 1 ∧ m.Content[2 * t]? = some k ∧ StringValue shortTag k = true ∧
      k.Value = key ∧ m.Content[2 * t + 1]? = some value

/-- The pointer `r` leads from the mapping `M` through an entry `spec` whose
value is a mapping, an entry `containers` of it whose value is a sequence, an
element of the sequence that is a mapping, to the value of an entry `image`
of the element that is a string scalar. -/
def ContainerImageAt (shortTag : TagFn) (M : Node) (r : Path) : Prop :=
  ∃ (a b c d : Nat) (S C E n : Node), r = [a, b, c, d] ∧
    HasEntry shortTag M "spec" a S ∧ S.Kind = Kind.MappingNode ∧
    HasEntry shortTag S "containers" b C ∧ C.Kind = Kind.SequenceNode ∧
    C.Content[c]? = some E ∧ HasEntry shortTag E "image" d n ∧
    StringValue shortTag n = true

/-- The pointer `p` leads to a container image field of the document: some
node `M` of the tree, at any depth, stands to it as in `ContainerImageAt`. -/
def IsContainerImage (shortTag : TagFn) (doc : Node) (p : Path) : Prop :=
  ∃ q r M, p = q ++ r ∧ doc.get? q = some M ∧ ContainerImageAt shortTag M r

/-- The strings of the synonyms of a reference. -/
def synonymStrings {Name : Type} (str : Name → String) (synonyms : Name → List Name)
    (old : Name) : List String :=
  (synonyms old).map str

/-- The pointers `ValuesForMap` then `e` select below a node, relative to
the node. -/
def pointersForMap (keyPredicate valuePredicate : Predicate) (e : Node → List Path)
    (X : Node) : List Path :=
  if X.Kind = Kind.MappingNode ∧ 0 < X.Content.length then
    (mapEntries 0 X.Content).flatMap (fun en =>
      if keyPredicate en.2.1 && valuePredicate en.2.2 then (e en.2.2).map (fun w => en.1 :: w)
      else [])
  else []

/-- The pointers `Values` then `e` select below a node, relative to the
node. -/
def pointersValues (e : Node → List Path) (X : Node) : List Path :=
  (children 0 X.Content).flatMap (fun c => (e c.2).map (fun w => c.1 :: w))

/-- The pointers `e` selects below the nodes an iterator yields. -/
def extend (e : Node → List Path) (it : Iterator) : List Path :=
  it.flatMap (fun x => (e x.2).map (fun w => x.1 ++ w))

/-- The loop body `body`, run for a pointer `r`, writes at the pointers `e`
selects below the node `r` points at, in this order, and records them. -/
def Tracks {Name : Type} (str : Name → String) (synonyms : Name → List Name)
    (imageMap : Path → List (Name × Name)) (body : WalkState → Path → WalkState)
    (e : Node → List Path) : Prop :=
  ∀ (D : Node) (tr : List Path) (r : Path) (X : Node), D.get? r = some X →
    body (D, tr) r
      = (writeAll str synonyms imageMap ((e X).map (fun w => r ++ w)) D,
          tr ++ (e X).map (fun w => r ++ w))

/-! ## pkg/images -/

/-- Modelled from the spec: the type `images.Set` of `pkg/images`, which is
not among the sources.  An image set is a container of canonical reference
strings without duplicates, compared and rendered in sorted order: here the
finite set of its canonical strings. -/
abbrev images.Set := Finset String

/-- Modelled from the spec: the value `images.Empty` of `pkg/images`, the
set without images. -/
def images.Empty : images.Set := ∅

/-- Modelled from the spec: the function `images.New` of `pkg/images`.  It
parses every entry, fails as a whole with the error of the first entry that
does not parse, and keeps each canonical string once.  `canonical` is the
reference parser followed by the canonical rendering. -/
def images.New (canonical : String → Except String String) :
    List String → Except String images.Set
  | [] => .ok ∅
  | img :: imgs =>
    match canonical img with
    | .error err => .error err
    | .ok name =>
      match images.New canonical imgs with
      | .error err => .error err
      | .ok set => .ok (insert name set)

/-- Modelled from the spec: the method `Set.Union` of `pkg/images`, a new
set with the canonical strings of both. -/
def images.Set.Union (s t : images.Set) : images.Set := s ∪ t

/-! ## pkg/json/container.go and pkg/sheaf/container.go -/

/-- The function `strings.Contains`. -/
def Contains (s substr : String) : Bool :=
  s.toList.tails.any (fun t => substr.toList.isPrefixOf t)

/-- The pieces of a text between the occurrences of a separator. -/
def splitChars (sep : Char) : List Char → List (List Char)
  | [] => [[]]
  | c :: cs =>
    if c = sep then [] :: splitChars sep cs
    else
      match splitChars sep cs with
      | piece :: pieces => (c :: piece) :: pieces
      | [] => [[c]]

/-- The function `strings.Split`, for a separator of one character. -/
def Split (s : String) (sep : Char) : List String :=
  (splitChars sep s.toList).map String.mk

/-- The function `filterEmpty`. -/
def filterEmpty (ss : List String) : List String :=
  ss.foldl (fun result s => if s ≠ "" then result ++ [s] else result) []

/-- The text the template writes for the image strings the query finds:
each string followed by a comma. -/
def rangeOutput (imgs : List String) : String :=
  String.join (imgs.map (fun i => i ++ ","))

/-- What a call of `decoder.Decode` delivers before the end of the input: a
document, or an error other than `io.EOF`. -/
inductive Decoded (Doc : Type) where
  | document (m : Doc)
  | failure (err : String)

/-- The libraries `FindImages` and `ContainerImages` call.  -/
structure Libs (Doc : Type) where
  /-- The results of the successive calls of `Decode` on a
  `yaml.NewYAMLOrJSONDecoder` over the bytes given, up to the call that
  returns `io.EOF`. -/
  Decode : List UInt8 → List (Decoded Doc)
  /-- The error of `jsonpath.Parse` on a template, if any. -/
  Parse : String → Option String
  /-- The text `jsonpath.Execute` writes for a document, or its error. -/
  Execute : Doc → Except String String
  /-- The canonical string of an image reference, or the error of parsing
  it. -/
  canonical : String → Except String String

/-- The template both functions hand to `jsonpath.Parse`. -/
def containerTemplate : String :=
  "\x7brange ..spec.containers[*]\x7d\x7b.image\x7d\x7b\x27,\x27\x7d\x7bend\x7d"

/-- The `for` loop of `FindImages`, over what `Decode` still has to deliver,
with the set collected so far.  The result is the pair `FindImages` returns:
the set, and the error if there is one. -/
def FindImages.loop {Doc : Type} (lib : Libs Doc) :
    List (Decoded Doc) → images.Set → images.Set × Option String
  | [], imgs => (imgs, none)
  | .failure err :: _, _ => (images.Empty, some ("decode failed: " ++ err))
  | .document m :: rest, imgs =>
    match lib.Parse containerTemplate with
    | some err => (images.Empty, some ("unable to parse: " ++ err))
    | none =>
      match lib.Execute m with
      | .error err =>
        if Contains err "is not found" then FindImages.loop lib rest imgs
        else (images.Empty, some ("search manifest for containers: " ++ err))
      | .ok buf =>
        match images.New lib.canonical (filterEmpty (Split buf ',')) with
        | .error err => (images.Empty, some err)
        | .ok bufImages => FindImages.loop lib rest (images.Set.Union imgs bufImages)

/-- The function `FindImages` of `pkg/json`, on a reader that delivers the
bytes `r`. -/
def FindImages {Doc : Type} (lib : Libs Doc) (r : List UInt8) : images.Set × Option String :=
  FindImages.loop lib (lib.Decode r) images.Empty

/-- The `for` loop of `ContainerImages`. -/
def ContainerImages.loop {Doc : Type} (lib : Libs Doc) :
    List (Decoded Doc) → images.Set → images.Set × Option String
  | [], imgs => (imgs, none)
  | .failure err :: _, _ => (images.Empty, some ("decode failed: " ++ err))
  | .document m :: rest, imgs =>
    match lib.Parse containerTemplate with
    | some err => (images.Empty, some ("unable to parse: " ++ err))
    | none =>
      match lib.Execute m with
      | .error err =>
        if Contains err "is not found" then ContainerImages.loop lib rest imgs
        else (images.Empty, some ("search manifest for containers: " ++ err))
      | .ok buf =>
        match images.New lib.canonical (filterEmpty (Split buf ',')) with
        | .error err => (images.Empty, some err)
        | .ok bufImages => ContainerImages.loop lib rest (images.Set.Union imgs bufImages)

/-- The function `ContainerImages` of `pkg/sheaf`.  `ReadFile` is
`ioutil.ReadFile`. -/
def ContainerImages {Doc : Type} (lib : Libs Doc)
    (ReadFile : String → Except String (List UInt8)) (manifestPath : String) :
    images.Set × Option String :=
  match ReadFile manifestPath with
  | .error err => (images.Empty, some ("read file: " ++ err))
  | .ok data => ContainerImages.loop lib (lib.Decode data) images.Empty

/-- Documents for the examples: a workload with the images of its
containers, or a ConfigMap. -/
inductive SampleDoc where
  | workload (images : List String)
  | configMap

/-- Libraries for the examples.  Byte 1 decodes to a Deployment with the
image `a:v1`, byte 2 to a Pod with the image `x@bad`, byte 3 to a Pod with
the images `b:v2` and `a:v1`, byte 0 to a ConfigMap and any other byte
fails to decode. -/
def sampleLibs : Libs SampleDoc where
  Decode := fun bytes => bytes.map (fun b =>
    if b = 0 then .document .configMap
    else if b = 1 then .document (.workload ["a:v1"])
    else if b = 2 then .document (.workload ["x@bad"])
    else if b = 3 then .document (.workload ["b:v2", "a:v1"])
    else .failure "yaml: invalid document")
  Parse := fun _ => none
  Execute := fun m =>
    match m with
    | .workload imgs => .ok (String.join (imgs.map (fun i => i ++ ",")))
    | .configMap => .error "spec is not found"
  canonical := fun s =>
    if s = "x@bad" then .error "invalid image reference: x@bad"
    else .ok ("docker.io/library/" ++ s)

/-! ## sample data -/

/-- Attributes of a node as yaml.v3 builds them (positions and comments left
at their zero values). -/
def plainAttrs (kind : Kind) (tag : String) : Attrs :=
  ⟨kind, 0, tag, "", "", "", "", 0, 0⟩

/-- A plain string scalar. -/
def strNode (value : String) : Node := .mk (plainAttrs .ScalarNode "!!str") value []

/-- A plain integer scalar. -/
def intNode (value : String) : Node := .mk (plainAttrs .ScalarNode "!!int") value []

/-- A mapping node with the given keys and values, alternating. -/
def mapNode (content : List Node) : Node := .mk (plainAttrs .MappingNode "!!map") "" content

/-- A sequence node. -/
def seqNode (content : List Node) : Node := .mk (plainAttrs .SequenceNode "!!seq") "" content

/-- A document node. -/
def docNode (root : Node) : Node := .mk (plainAttrs .DocumentNode "") "" [root]

/-- The short tag of a node yaml.v3 has decoded: the tag the parser stored. -/
def decodedShortTag : TagFn := fun a _ => a.Tag

/-- A Deployment with two containers, as `testdata/deployment.yaml` with a
second container added. -/
def deployment (image1 image2 : String) : Node :=
  docNode (mapNode [
    strNode "apiVersion", strNode "apps/v1",
    strNode "kind", strNode "Deployment",
    strNode "metadata", mapNode [strNode "name", strNode "nginx-deployment"],
    strNode "spec", mapNode [
      strNode "replicas", intNode "3",
      strNode "template", mapNode [
        strNode "spec", mapNode [
          strNode "containers", seqNode [
            mapNode [strNode "name", strNode "nginx", strNode "image", strNode image1,
              strNode "ports", seqNode [mapNode [strNode "containerPort", intNode "80"]]],
            mapNode [strNode "name", strNode "sidecar", strNode "image", strNode image2]]]]]])

/-- Image references for the examples, each identified with the string it
prints; the synonyms of a Docker Hub library image are its shorter
spellings, and any other reference has itself as only synonym. -/
def sampleSynonyms : String → List String
  | "docker.io/library/nginx:1.7.9" =>
    ["docker.io/library/nginx:1.7.9", "library/nginx:1.7.9", "nginx:1.7.9"]
  | s => [s]

/-- The mapping of `TestReplaceImage`: `nginx:1.7.9`, which prints as
`docker.io/library/nginx:1.7.9`, to `example.com/nginx:1.7.9`. -/
def nginxMapping : List (String × String) :=
  [("docker.io/library/nginx:1.7.9", "example.com/nginx:1.7.9")]

/-- A mapping in which the new reference of one pair is the old reference
of the other. -/
def chainMapping : List (String × String) :=
  [("example.com/a:1", "example.com/b:1"), ("example.com/b:1", "example.com/c:1")]

/-- A mapping of two pairs that neither overlap nor chain. -/
def disjointMapping : List (String × String) :=
  [("docker.io/library/nginx:1.7.9", "example.com/nginx:1.7.9"),
   ("busybox", "example.com/busybox")]

/-- The pointer to the image of the first container of `deployment`. -/
def firstImage : Path := [0, 7, 3, 1, 1, 0, 3]

/-- The pointer to the image of the second container of `deployment`. -/
def secondImage : Path := [0, 7, 3, 1, 1, 1, 3]

/-- A decoder that delivers the sample Deployment whatever the bytes. -/
def sampleUnmarshal : List UInt8 → Except String Node :=
  fun _ => .ok (deployment "nginx:1.7.9" "busybox")

/-- A decoder that rejects its input, as yaml.v3 does for `a: [`. -/
def failingUnmarshal : List UInt8 → Except String Node :=
  fun _ => .error "yaml: line 1: did not find expected node content"

/-- An encoder that writes the image texts of the sample Deployment, one per
line. -/
def sampleMarshal : Node → Except String (List UInt8) :=
  fun doc =>
    .ok ((((doc.get? firstImage).map Node.Value).getD "").toUTF8.toList ++ [10]
      ++ (((doc.get? secondImage).map Node.Value).getD "").toUTF8.toList)

/-- The text the first pair, in evaluation order, whose old reference has
`value` among its synonym strings would give: the new string of that pair,
or `value` itself when there is none. -/
def firstMatchValue {Name : Type} (str : Name → String) (synonyms : Name → List Name)
    (pairs : List (Name × Name)) (value : String) : String :=
  match pairs.find? (fun pr => decide (value ∈ synonymStrings str synonyms pr.1)) with
  | some pr => str pr.2
  | none => value

/-- No string is a synonym string of the old references of two different
pairs. -/
def NonOverlapping {Name : Type} (str : Name → String) (synonyms : Name → List Name)
    (mapping : List (Name × Name)) : Prop :=
  ∀ pr1 ∈ mapping, ∀ pr2 ∈ mapping, pr1 ≠ pr2 →
    ∀ s ∈ synonymStrings str synonyms pr1.1, s ∉ synonymStrings str synonyms pr2.1

/-- The string of no new reference is a synonym string of the old reference
of another pair. -/
def NoChain {Name : Type} (str : Name → String) (synonyms : Name → List Name)
    (mapping : List (Name × Name)) : Prop :=
  ∀ pr1 ∈ mapping, ∀ pr2 ∈ mapping, pr1 ≠ pr2 →
    str pr1.2 ∉ synonymStrings str synonyms pr2.1

theorem Node.ind {P : Node → Prop} (h : ∀ a v cs, (∀ c ∈ cs, P c) → P (.mk a v cs)) : ∀ X, P X
  | .mk a v cs => h a v cs (fun c hc => by
      have : sizeOf c < sizeOf (Node.mk a v cs) := by
        have := List.sizeOf_lt_of_mem hc
        simp; omega
      exact Node.ind h c)
termination_by X => sizeOf X

theorem Node.eta (X : Node) : Node.mk X.attrs X.Value X.Content = X := by
  cases X; rfl

section
variable {Name : Type} (shortTag : TagFn) (str : Name → String) (synonyms : Name → List Name)

theorem writeAll_nil (im : Path → List (Name × Name)) (X : Node) :
    writeAll str synonyms im [] X = X := rfl

theorem writeAll_append (im : Path → List (Name × Name)) (l1 l2 : List Path) (X : Node) :
    writeAll str synonyms im (l1 ++ l2) X
      = writeAll str synonyms im l2 (writeAll str synonyms im l1 X) := by
  simp [writeAll, List.foldl_append]

theorem writeAll_map_cons (im : Path → List (Name × Name)) (i : Nat) (l : List Path)
    (a : Attrs) (v : String) (cs : List Node) :
    writeAll str synonyms im (l.map (fun p => i :: p)) (.mk a v cs)
      = .mk a v (cs.modify (writeAll str synonyms (fun q => im (i :: q)) l) i) := by
  induction l generalizing cs with
  | nil =>
    have h : writeAll str synonyms (fun q => im (i :: q)) [] = id := rfl
    rw [h, List.modify_id]; rfl
  | cons p l ih =>
    simp only [writeAll, List.map_cons, List.foldl_cons, Node.modifyValue] at ih ⊢
    rw [ih]
    congr 1
    rw [List.modify_modify_eq]
    rfl

theorem mem_mapEntries (e : Nat × Node × Node) :
    ∀ (i : Nat) (cs : List Node), e ∈ mapEntries i cs ↔
      ∃ t, e.1 = i + 2 * t + 1 ∧ cs[2 * t]? = some e.2.1 ∧ cs[2 * t + 1]? = some e.2.2
  | _, [] => by simp [mapEntries]
  | _, [_] => by simp [mapEntries]
  | i, k :: v :: cs => by
    simp only [mapEntries, List.mem_cons, mem_mapEntries e (i + 2) cs]
    constructor
    · rintro (h | ⟨t, h1, h2, h3⟩)
      · exact ⟨0, by simp [h]⟩
      · refine ⟨t + 1, by omega, ?_, ?_⟩
        · rw [show 2 * (t + 1) = 2 * t + 1 + 1 by ring]; simpa using h2
        · rw [show 2 * (t + 1) + 1 = 2 * t + 1 + 1 + 1 by ring]; simpa using h3
    · rintro ⟨t, h1, h2, h3⟩
      cases t with
      | zero =>
        left
        simp at h2 h3
        exact Prod.ext (by simpa using h1) (Prod.ext h2.symm h3.symm)
      | succ t =>
        right
        refine ⟨t, by omega, ?_, ?_⟩
        · rw [show 2 * (t + 1) = 2 * t + 1 + 1 by ring] at h2; simpa using h2
        · rw [show 2 * (t + 1) + 1 = 2 * t + 1 + 1 + 1 by ring] at h3; simpa using h3

theorem mem_children (c : Nat × Node) :
    ∀ (i : Nat) (cs : List Node), c ∈ children i cs ↔ ∃ t, c.1 = i + t ∧ cs[t]? = some c.2 := by
  intro i cs
  induction cs generalizing i with
  | nil => simp [children]
  | cons a cs ih =>
    simp only [children, List.mem_cons, ih]
    constructor
    · rintro (h | ⟨t, h1, h2⟩)
      · exact ⟨0, by simp [h]⟩
      · exact ⟨t + 1, by omega, by simpa using h2⟩
    · rintro ⟨t, h1, h2⟩
      cases t with
      | zero => left; simp at h2; exact Prod.ext (by simpa using h1) h2.symm
      | succ t => right; exact ⟨t, by omega, by simpa using h2⟩

theorem children_fst_nodup : ∀ (cs : List Node) (i : Nat),
    ((children i cs).map Prod.fst).Nodup := by
  intro cs
  induction cs with
  | nil => intro i; simp [children]
  | cons c cs ih =>
    intro i
    simp only [children, List.map_cons, List.nodup_cons]
    refine ⟨?_, ih (i + 1)⟩
    simp only [List.mem_map, not_exists, not_and]
    intro d hd
    obtain ⟨t, ht, _⟩ := (mem_children d (i + 1) cs).mp hd
    omega

theorem mapEntries_fst_nodup : ∀ (i : Nat) (cs : List Node),
    ((mapEntries i cs).map Prod.fst).Nodup
  | _, [] => by simp [mapEntries]
  | _, [_] => by simp [mapEntries]
  | i, k :: v :: cs => by
    simp only [mapEntries, List.map_cons, List.nodup_cons]
    refine ⟨?_, mapEntries_fst_nodup (i + 2) cs⟩
    simp only [List.mem_map, not_exists, not_and]
    intro d hd
    obtain ⟨t, ht, _⟩ := (mem_mapEntries d (i + 2) cs).mp hd
    omega

/-! ### the loops of one round read and write as `imageit` says -/

theorem get?_append : ∀ (r s : Path) (D : Node),
    D.get? (r ++ s) = (D.get? r).bind (fun X => X.get? s) := by
  intro r
  induction r with
  | nil => intro s D; rfl
  | cons i r ih =>
    intro s D
    simp only [List.cons_append, Node.get?]
    cases D.Content[i]? with
    | none => rfl
    | some c => exact ih s c

theorem get?_modifyValue_of_not_below (f : String → String) :
    ∀ (r w : Path) (D : Node), ¬ r <+: w → (D.modifyValue w f).get? r = D.get? r := by
  intro r
  induction r with
  | nil => intro w D h; exact absurd ⟨w, rfl⟩ h
  | cons j r ih =>
    intro w D h
    cases D with
    | mk a v cs =>
      cases w with
      | nil => rfl
      | cons i w =>
        simp only [Node.modifyValue, Node.get?, Node.Content, List.getElem?_modify]
        cases hj : cs[j]? with
        | none => rfl
        | some c =>
          by_cases hij : i = j
          · subst hij
            simp only [if_true, Option.map_eq_map, Option.map_some']
            exact ih w c (fun hp => h (List.cons_prefix_cons.mpr ⟨rfl, hp⟩))
          · simp [hij]

theorem get?_writeAll_of_not_below (im : Path → List (Name × Name)) (r : Path) :
    ∀ (ws : List Path) (D : Node), (∀ w ∈ ws, ¬ r <+: w) →
      (writeAll str synonyms im ws D).get? r = D.get? r := by
  intro ws
  induction ws with
  | nil => intro D _; rfl
  | cons w ws ih =>
    intro D h
    simp only [writeAll, List.foldl_cons] at ih ⊢
    rw [ih _ (fun u hu => h u (List.mem_cons_of_mem _ hu)),
      get?_modifyValue_of_not_below _ r w D (h w (List.mem_cons_self _ _))]

theorem Tracks_writeImage (im : Path → List (Name × Name)) :
    Tracks str synonyms im (writeImage str synonyms im) (fun _ => [[]]) := by
  intro D tr r X _
  simp [writeImage, writeAll]

theorem foldl_entries (im : Path → List (Name × Name)) (kp vp : Predicate)
    (body : WalkState → Path → WalkState) (e : Node → List Path)
    (hb : Tracks str synonyms im body e) (r : Path) :
    ∀ (es : List (Nat × Node × Node)) (D : Node) (tr : List Path),
      (es.map Prod.fst).Nodup → (∀ en ∈ es, en.1 % 2 = 1) →
      (∀ en ∈ es, D.get? (r ++ [en.1 - 1]) = some en.2.1 ∧
        D.get? (r ++ [en.1]) = some en.2.2) →
      es.foldl (fun (t : WalkState) en =>
          match t.1.get? (r ++ [en.1 - 1]), t.1.get? (r ++ [en.1]) with
          | some key, some value =>
            if kp key && vp value then body t (r ++ [en.1]) else t
          | _, _ => t) (D, tr)
        = (writeAll str synonyms im
            ((es.flatMap (fun en =>
              if kp en.2.1 && vp en.2.2 then (e en.2.2).map (fun w => en.1 :: w)
              else [])).map (fun w => r ++ w)) D,
           tr ++ (es.flatMap (fun en =>
              if kp en.2.1 && vp en.2.2 then (e en.2.2).map (fun w => en.1 :: w)
              else [])).map (fun w => r ++ w)) := by
  intro es
  induction es with
  | nil => intro D tr _ _ _; simp [writeAll]
  | cons en es ih =>
    intro D tr hnd hodd hget
    rw [List.map_cons, List.nodup_cons] at hnd
    have hen := hget en (List.mem_cons_self _ _)
    simp only [List.foldl_cons, hen.1, hen.2, List.flatMap_cons, List.map_append]
    by_cases hc : (kp en.2.1 && vp en.2.2) = true
    · simp only [hc, if_true]
      have hlist : ((e en.2.2).map (fun w => en.1 :: w)).map (fun w => r ++ w)
          = (e en.2.2).map (fun w => (r ++ [en.1]) ++ w) := by
        simp [List.map_map, Function.comp]
      rw [hlist, hb D tr (r ++ [en.1]) en.2.2 hen.2]
      have hws : ∀ w ∈ (e en.2.2).map (fun w => (r ++ [en.1]) ++ w),
          ∀ j, j ≠ en.1 → ¬ (r ++ [j]) <+: w := by
        intro w hw j hj hp
        obtain ⟨w0, _, rfl⟩ := List.mem_map.mp hw
        rw [List.append_assoc, List.prefix_append_right_inj] at hp
        exact hj (List.cons_prefix_cons.mp hp).1
      rw [ih _ _ hnd.2 (fun en2 h2 => hodd en2 (List.mem_cons_of_mem _ h2)) ?_]
      · rw [writeAll_append, List.append_assoc]
      · intro en2 h2
        have h1 := hodd en (List.mem_cons_self _ _)
        have h3 := hodd en2 (List.mem_cons_of_mem _ h2)
        have hne : en2.1 ≠ en.1 := by
          intro heq
          exact hnd.1 (by rw [← heq]; exact List.mem_map_of_mem _ h2)
        have hg := hget en2 (List.mem_cons_of_mem _ h2)
        rw [get?_writeAll_of_not_below str synonyms im _ _ D
            (fun w hw => hws w hw (en2.1 - 1) (by omega)),
          get?_writeAll_of_not_below str synonyms im _ _ D
            (fun w hw => hws w hw en2.1 hne)]
        exact hg
    · simp only [hc, if_false, List.map_nil, List.nil_append]
      exact ih D tr hnd.2 (fun en2 h2 => hodd en2 (List.mem_cons_of_mem _ h2))
        (fun en2 h2 => hget en2 (List.mem_cons_of_mem _ h2))

theorem Tracks_eachValueForMap (im : Path → List (Name × Name)) (kp vp : Predicate)
    (body : WalkState → Path → WalkState) (e : Node → List Path)
    (hb : Tracks str synonyms im body e) :
    Tracks str synonyms im (eachValueForMap kp vp body) (pointersForMap kp vp e) := by
  intro D tr r X hX
  simp only [eachValueForMap, pointersForMap, hX]
  by_cases hm : X.Kind = Kind.MappingNode ∧ 0 < X.Content.length
  · simp only [hm, and_self, if_true]
    refine foldl_entries str synonyms im kp vp body e hb r _ D tr
      (mapEntries_fst_nodup 0 _) ?_ ?_
    · intro en hen
      obtain ⟨t, ht, _, _⟩ := (mem_mapEntries en 0 _).mp hen
      omega
    · intro en hen
      obtain ⟨t, ht, hk, hv⟩ := (mem_mapEntries en 0 _).mp hen
      have h1 : en.1 - 1 = 2 * t := by omega
      have h2 : en.1 = 2 * t + 1 := by omega
      constructor
      · rw [get?_append, hX, h1]
        simp only [Option.some_bind, Node.get?, hk]
      · rw [get?_append, hX, h2]
        simp only [Option.some_bind, Node.get?, hv]
  · simp only [hm, if_false, writeAll, List.map_nil, List.foldl_nil, List.append_nil]

theorem foldl_values (im : Path → List (Name × Name))
    (body : WalkState → Path → WalkState) (e : Node → List Path)
    (hb : Tracks str synonyms im body e) (r : Path) :
    ∀ (cs : List (Nat × Node)) (D : Node) (tr : List Path),
      (cs.map Prod.fst).Nodup →
      (∀ c ∈ cs, D.get? (r ++ [c.1]) = some c.2) →
      cs.foldl (fun (t : WalkState) c => body t (r ++ [c.1])) (D, tr)
        = (writeAll str synonyms im
            ((cs.flatMap (fun c => (e c.2).map (fun w => c.1 :: w))).map (fun w => r ++ w)) D,
           tr ++ (cs.flatMap (fun c => (e c.2).map (fun w => c.1 :: w))).map
              (fun w => r ++ w)) := by
  intro cs
  induction cs with
  | nil => intro D tr _ _; simp [writeAll]
  | cons c cs ih =>
    intro D tr hnd hget
    rw [List.map_cons, List.nodup_cons] at hnd
    simp only [List.foldl_cons, List.flatMap_cons, List.map_append]
    have hlist : ((e c.2).map (fun w => c.1 :: w)).map (fun w => r ++ w)
        = (e c.2).map (fun w => (r ++ [c.1]) ++ w) := by
      simp [List.map_map, Function.comp]
    rw [hlist, hb D tr (r ++ [c.1]) c.2 (hget c (List.mem_cons_self _ _))]
    rw [ih _ _ hnd.2 ?_]
    · rw [writeAll_append, List.append_assoc]
    · intro c2 h2
      have hne : c2.1 ≠ c.1 := by
        intro heq
        exact hnd.1 (by rw [← heq]; exact List.mem_map_of_mem _ h2)
      rw [get?_writeAll_of_not_below str synonyms im _ _ D ?_]
      · exact hget c2 (List.mem_cons_of_mem _ h2)
      · intro w hw hp
        obtain ⟨w0, _, rfl⟩ := List.mem_map.mp hw
        rw [List.append_assoc, List.prefix_append_right_inj] at hp
        exact hne (List.cons_prefix_cons.mp hp).1

theorem Tracks_eachValue (im : Path → List (Name × Name))
    (body : WalkState → Path → WalkState) (e : Node → List Path)
    (hb : Tracks str synonyms im body e) :
    Tracks str synonyms im (eachValue body) (pointersValues e) := by
  intro D tr r X hX
  simp only [eachValue, pointersValues, hX]
  refine foldl_values str synonyms im body e hb r _ D tr (children_fst_nodup _ 0) ?_
  intro c hc
  obtain ⟨t, ht, hv⟩ := (mem_children c 0 _).mp hc
  have h1 : c.1 = t := by omega
  rw [get?_append, hX, h1]
  simp only [Option.some_bind, Node.get?, hv]

theorem extend_ValuesForMap (kp vp : Predicate) (e : Node → List Path) (it : Iterator) :
    extend e (it.ValuesForMap kp vp) = extend (pointersForMap kp vp e) it := by
  unfold extend Iterator.ValuesForMap
  rw [List.flatMap_assoc]
  congr 1
  funext x
  unfold pointersForMap
  by_cases hm : x.2.Kind = Kind.MappingNode ∧ 0 < x.2.Content.length
  · simp only [hm, and_self, if_true]
    generalize mapEntries 0 x.2.Content = es
    induction es with
    | nil => rfl
    | cons en es ih =>
      simp only [List.filterMap_cons, List.flatMap_cons, List.map_append]
      by_cases hc : (kp en.2.1 && vp en.2.2) = true
      · simp only [hc, if_true, List.flatMap_cons, ih]
        simp [List.map_map, Function.comp]
      · have hc2 : (kp en.2.1 && vp en.2.2) = false := by simpa using hc
        simp only [hc2, Bool.false_eq_true, if_false, ih, List.map_nil, List.nil_append]
  · simp only [hm, if_false, List.flatMap_nil, List.map_nil]

theorem extend_Values (e : Node → List Path) (it : Iterator) :
    extend e it.Values = extend (pointersValues e) it := by
  unfold extend Iterator.Values
  rw [List.flatMap_assoc]
  congr 1
  funext x
  unfold pointersValues
  generalize children 0 x.2.Content = cs
  induction cs with
  | nil => rfl
  | cons c cs ih =>
    simp only [List.map_cons, List.flatMap_cons, List.map_append, ih]
    simp [List.map_map, Function.comp]

theorem extend_fst (it : Iterator) : extend (fun _ => [[]]) it = it.map Prod.fst := by
  unfold extend
  induction it with
  | nil => rfl
  | cons x it ih => rw [List.flatMap_cons, ih]; simp

theorem extend_FromNode (e : Node → List Path) (X : Node) : extend e (FromNode X) = e X := by
  simp [extend, FromNode]

/-- The pointers `imageit` yields from a pod spec are those the four nested
loops of a round select. -/
theorem imageit_fst (X : Node) :
    (imageit shortTag X).map Prod.fst
      = pointersForMap (WithStringValue shortTag "spec") (specPredicate shortTag)
          (pointersForMap (WithStringValue shortTag "containers")
            (containerPredicate shortTag)
            (pointersValues
              (pointersForMap (WithStringValue shortTag "image") (StringValue shortTag)
                (fun _ => [[]])))) X := by
  rw [← extend_fst, imageit, extend_ValuesForMap, extend_Values, extend_ValuesForMap,
    extend_ValuesForMap, extend_FromNode]

/-- One round of the outer loop in closed form: the lazily evaluated loops
write at the pointers `imageit` yields from the pod spec as it is when the
round begins. -/
theorem visit_eq (im : Path → List (Name × Name)) (D : Node) (tr : List Path) (p : Path) :
    visit shortTag str synonyms im (D, tr) p =
      match D.get? p with
      | none => (D, tr)
      | some n =>
        if podSpecPredicate shortTag n then
          (writeAll str synonyms im ((imageit shortTag n).map (fun x => p ++ x.1)) D,
            tr ++ (imageit shortTag n).map (fun x => p ++ x.1))
        else (D, tr) := by
  unfold visit
  cases hg : D.get? p with
  | none => rfl
  | some n =>
    simp only
    split
    · have hmap : (imageit shortTag n).map (fun x => p ++ x.1)
          = ((imageit shortTag n).map Prod.fst).map (fun w => p ++ w) := by
        simp [List.map_map, Function.comp]
      rw [hmap, imageit_fst]
      exact Tracks_eachValueForMap str synonyms im _ _ _ _
        (Tracks_eachValueForMap str synonyms im _ _ _ _
          (Tracks_eachValue str synonyms im _ _
            (Tracks_eachValueForMap str synonyms im _ _ _ _
              (Tracks_writeImage str synonyms im)))) D tr p n hg
    · rfl

/-! ### trees that agree up to texts not read -/

theorem altRel_imp {R0 R1 S0 S1 : Node → Node → Prop} (h0 : ∀ a b, R0 a b → S0 a b)
    (h1 : ∀ a b, R1 a b → S1 a b) :
    ∀ (cs os : List Node), altRel R0 R1 cs os → altRel S0 S1 cs os := by
  intro cs
  induction cs generalizing R0 R1 S0 S1 with
  | nil => intro os h; cases os <;> simp_all [altRel]
  | cons c cs ih =>
    intro os h
    cases os with
    | nil => simp [altRel] at h
    | cons o os => exact ⟨h0 _ _ h.1, ih h1 h0 os h.2⟩

theorem altRel_refl {R0 R1 : Node → Node → Prop} (h0 : ∀ a, R0 a a) (h1 : ∀ a, R1 a a) :
    ∀ (cs : List Node), altRel R0 R1 cs cs := by
  intro cs
  induction cs generalizing R0 R1 with
  | nil => trivial
  | cons c cs ih => exact ⟨h0 c, ih h1 h0⟩

theorem altRel_eq : ∀ (cs os : List Node), altRel Eq Eq cs os → cs = os := by
  intro cs
  induction cs with
  | nil => intro os h; cases os <;> simp_all [altRel]
  | cons c cs ih =>
    intro os h
    cases os with
    | nil => simp [altRel] at h
    | cons o os => rw [h.1, ih os h.2]

theorem altRel_forall₂ {R0 R1 : Node → Node → Prop} :
    ∀ (cs os : List Node), altRel R0 R1 cs os →
      List.Forall₂ (fun a b => R0 a b ∨ R1 a b) cs os := by
  intro cs
  induction cs generalizing R0 R1 with
  | nil => intro os h; cases os <;> simp_all [altRel]
  | cons c cs ih =>
    intro os h
    cases os with
    | nil => simp [altRel] at h
    | cons o os =>
      refine List.Forall₂.cons (Or.inl h.1) ?_
      exact (ih os h.2).imp (fun a b hab => hab.symm)

theorem Agree_refl : ∀ (n : Nat) (v : Bool) (X : Node), Agree n v X X := by
  intro n
  induction n with
  | zero => intro v X; rfl
  | succ n ih =>
    intro v X
    exact ⟨rfl, Or.inr rfl, altRel_refl (ih _) (ih _) _⟩

theorem Agree_attrs : ∀ {n : Nat} {v : Bool} {X O : Node}, Agree n v X O → X.attrs = O.attrs := by
  intro n v X O h
  cases n with
  | zero => rw [show X = O from h]
  | succ n => exact h.1

theorem Agree_Value : ∀ {n : Nat} {X O : Node}, Agree n false X O → X.Value = O.Value := by
  intro n X O h
  cases n with
  | zero => rw [show X = O from h]
  | succ n => rcases h.2.1 with h1 | h1
              · cases h1
              · exact h1

theorem Agree_mono : ∀ (n : Nat) (v : Bool) (X O : Node), Agree n v X O → Agree (n + 1) v X O := by
  intro n
  induction n with
  | zero => intro v X O h; rw [show X = O from h]; exact Agree_refl _ _ _
  | succ n ih =>
    intro v X O h
    exact ⟨h.1, h.2.1, altRel_imp (ih _) (ih _) _ _ h.2.2⟩

theorem Agree_children {n : Nat} {v : Bool} {X O : Node} (h : Agree (n + 1) v X O) :
    List.Forall₂ (fun a b => ∃ w, Agree n w a b) X.Content O.Content := by
  refine (altRel_forall₂ _ _ h.2.2).imp ?_
  intro a b hab
  rcases hab with hab | hab
  · exact ⟨_, hab⟩
  · exact ⟨_, hab⟩


theorem forall₂_flatMap {α β γ δ : Type} {R : α → β → Prop} {S : γ → δ → Prop}
    {f : α → List γ} {g : β → List δ} (h : ∀ x y, R x y → List.Forall₂ S (f x) (g y)) :
    ∀ {l : List α} {m : List β}, List.Forall₂ R l m →
      List.Forall₂ S (l.flatMap f) (m.flatMap g) := by
  intro l m hlm
  induction hlm with
  | nil => simp
  | cons hab _ ih =>
    simp only [List.flatMap_cons]
    exact List.rel_append (h _ _ hab) ih

theorem mapEntries_rel {R0 R1 : Node → Node → Prop} :
    ∀ (i : Nat) (cs os : List Node), altRel R0 R1 cs os →
      List.Forall₂ (fun e d => e.1 = d.1 ∧ R0 e.2.1 d.2.1 ∧ R1 e.2.2 d.2.2)
        (mapEntries i cs) (mapEntries i os)
  | _, [], [], _ => by simp [mapEntries]
  | _, [], _ :: _, h => by simp [altRel] at h
  | _, _ :: _, [], h => by simp [altRel] at h
  | _, [_], [_], _ => by simp [mapEntries]
  | _, [_], _ :: _ :: _, h => by simp [altRel] at h
  | _, _ :: _ :: _, [_], h => by simp [altRel] at h
  | i, k :: v :: cs, k2 :: v2 :: os, h => by
    simp only [mapEntries]
    exact List.Forall₂.cons ⟨rfl, h.1, h.2.1⟩ (mapEntries_rel (i + 2) cs os h.2.2)

theorem children_rel {R : Node → Node → Prop} :
    ∀ (i : Nat) {cs os : List Node}, List.Forall₂ R cs os →
      List.Forall₂ (fun c o => c.1 = o.1 ∧ R c.2 o.2) (children i cs) (children i os) := by
  intro i cs os h
  induction h generalizing i with
  | nil => simp [children]
  | cons hab _ ih => exact List.Forall₂.cons ⟨rfl, hab⟩ (ih (i + 1))

theorem ItRel_zero_eq {it1 it2 : Iterator} (h : ItRel 0 it1 it2) : it1 = it2 := by
  induction h with
  | nil => rfl
  | cons hab _ ih =>
    obtain ⟨h1, _, h2⟩ := hab
    rw [ih, Prod.ext h1 h2]

theorem Values_rel {n : Nat} {it1 it2 : Iterator} (h : ItRel (n + 1) it1 it2) :
    ItRel n it1.Values it2.Values := by
  refine forall₂_flatMap ?_ h
  rintro x y ⟨hp, v, hxy⟩
  rw [List.forall₂_map_left_iff, List.forall₂_map_right_iff]
  refine (children_rel 0 (Agree_children hxy)).imp ?_
  rintro c o ⟨hi, hco⟩
  exact ⟨by rw [hp, hi], hco⟩

theorem ValuesForMap_rel {n : Nat} {it1 it2 : Iterator} {kp vp : Predicate}
    (hk : ∀ a b, Agree n false a b → kp a = kp b)
    (hv : ∀ a b, Agree n true a b → vp a = vp b)
    (h : ItRel (n + 1) it1 it2) :
    ItRel n (it1.ValuesForMap kp vp) (it2.ValuesForMap kp vp) := by
  refine forall₂_flatMap ?_ h
  rintro x y ⟨hp, v, hxy⟩
  have hkind : x.2.Kind = y.2.Kind := by unfold Node.Kind; rw [hxy.1]
  have hlen : x.2.Content.length = y.2.Content.length := (Agree_children hxy).length_eq
  by_cases hm : y.2.Kind = Kind.MappingNode ∧ 0 < y.2.Content.length
  · rw [if_pos (by rw [hkind, hlen]; exact hm), if_pos hm]
    have hrel := mapEntries_rel 0 _ _ hxy.2.2
    simp only [hm.1, decide_True] at hrel
    clear hlen hkind hm
    generalize mapEntries 0 x.2.Content = l1 at hrel ⊢
    generalize mapEntries 0 y.2.Content = l2 at hrel ⊢
    induction hrel with
    | nil => exact List.Forall₂.nil
    | cons hed _ ih =>
      rename_i e d _ _ _
      obtain ⟨hi, h0, h1⟩ := hed
      simp only [List.filterMap_cons]
      rw [hk _ _ h0, hv _ _ h1]
      by_cases hc : (kp d.2.1 && vp d.2.2) = true
      · simp only [hc, if_true]
        exact List.Forall₂.cons ⟨by rw [hp, hi], _, h1⟩ ih
      · simp only [hc, if_false]
        exact ih
  · rw [if_neg (by rw [hkind, hlen]; exact hm), if_neg hm]
    exact List.Forall₂.nil


theorem AnyMatch_eq_any (it : Iterator) (p : Predicate) :
    it.AnyMatch p = it.any (fun x => p x.2) := by
  induction it with
  | nil => rfl
  | cons x it ih =>
    simp only [Iterator.AnyMatch, Iterator.Filter, List.filter_cons, List.any_cons] at ih ⊢
    cases hx : p x.2 <;> simp [hx, ih]

theorem AnyMatch_rel {R : Path × Node → Path × Node → Prop} {p : Predicate}
    (hp : ∀ x y, R x y → p x.2 = p y.2) :
    ∀ {it1 it2 : Iterator}, List.Forall₂ R it1 it2 → it1.AnyMatch p = it2.AnyMatch p := by
  intro it1 it2 h
  rw [AnyMatch_eq_any, AnyMatch_eq_any]
  induction h with
  | nil => rfl
  | cons hab _ ih => simp only [List.any_cons, hp _ _ hab, ih]

theorem FromNode_rel {n : Nat} {v : Bool} {X O : Node} (h : Agree n v X O) :
    ItRel n (FromNode X) (FromNode O) :=
  List.Forall₂.cons ⟨rfl, v, h⟩ List.Forall₂.nil

theorem WithValue_agree (s : String) {n : Nat} (a b : Node) (h : Agree n false a b) :
    WithValue s a = WithValue s b := by
  unfold WithValue; rw [Agree_Value h]

theorem StringValue_agree (a b : Node) {v : Bool} (h : Agree 0 v a b) :
    StringValue shortTag a = StringValue shortTag b := by
  rw [show a = b from h]

theorem WithStringValue_agree (s : String) {n : Nat} (a b : Node) (h : Agree n false a b) :
    WithStringValue shortTag s a = WithStringValue shortTag s b := by
  simp only [WithStringValue, StringValue, Intersect, WithKind, WithShortTag, Node.Kind,
    List.all_cons, List.all_nil, Agree_Value h, Agree_attrs h]

theorem WithMapKeyValue_agree {n : Nat} {kp vp : Predicate}
    (hk : ∀ a b, Agree n false a b → kp a = kp b)
    (hv : ∀ a b, Agree n true a b → vp a = vp b)
    {v : Bool} (a b : Node) (h : Agree (n + 1) v a b) :
    WithMapKeyValue kp vp a = WithMapKeyValue kp vp b := by
  unfold WithMapKeyValue
  have hall : ∀ x y : Path × Node, (x.1 = y.1 ∧ ∃ w, Agree n w x.2 y.2) → All x.2 = All y.2 :=
    fun _ _ _ => rfl
  exact AnyMatch_rel hall (ValuesForMap_rel hk hv (FromNode_rel h))

theorem containerPredicate_agree {v : Bool} (a b : Node) (h : Agree 2 v a b) :
    containerPredicate shortTag a = containerPredicate shortTag b := by
  have hk : a.Kind = b.Kind := by unfold Node.Kind; rw [Agree_attrs h]
  have hn : WithNestedValue
        (WithMapKeyValue (WithStringValue shortTag "image") (StringValue shortTag)) a
      = WithNestedValue
        (WithMapKeyValue (WithStringValue shortTag "image") (StringValue shortTag)) b := by
    unfold WithNestedValue
    refine AnyMatch_rel ?_ (Values_rel (FromNode_rel h))
    rintro x y ⟨_, w, hxy⟩
    exact WithMapKeyValue_agree (fun _ _ => WithStringValue_agree shortTag "image" _ _)
      (fun _ _ => StringValue_agree shortTag _ _) _ _ hxy
  simp only [containerPredicate, Intersect, WithKind, List.all_cons, List.all_nil, hk, hn]

theorem specPredicate_agree {v : Bool} (a b : Node) (h : Agree 3 v a b) :
    specPredicate shortTag a = specPredicate shortTag b := by
  have hk : a.Kind = b.Kind := by unfold Node.Kind; rw [Agree_attrs h]
  have hn := WithMapKeyValue_agree (fun _ _ => WithValue_agree "containers" _ _)
      (fun _ _ => containerPredicate_agree shortTag _ _) _ _ h
  simp only [specPredicate, Intersect, WithKind, List.all_cons, List.all_nil, hk, hn]

theorem podSpecPredicate_agree {v : Bool} (a b : Node) (h : Agree 4 v a b) :
    podSpecPredicate shortTag a = podSpecPredicate shortTag b := by
  have hk : a.Kind = b.Kind := by unfold Node.Kind; rw [Agree_attrs h]
  have hn := WithMapKeyValue_agree (fun _ _ => WithValue_agree "spec" _ _)
      (fun _ _ => specPredicate_agree shortTag _ _) _ _ h
  simp only [podSpecPredicate, Intersect, WithKind, List.all_cons, List.all_nil, hk, hn]

theorem imageit_agree {v : Bool} (a b : Node) (h : Agree 4 v a b) :
    imageit shortTag a = imageit shortTag b := by
  unfold imageit
  apply ItRel_zero_eq
  apply ValuesForMap_rel (fun _ _ => WithStringValue_agree shortTag "image" _ _)
      (fun _ _ => StringValue_agree shortTag _ _)
  apply Values_rel
  apply ValuesForMap_rel (fun _ _ => WithStringValue_agree shortTag "containers" _ _)
      (fun _ _ => containerPredicate_agree shortTag _ _)
  apply ValuesForMap_rel (fun _ _ => WithStringValue_agree shortTag "spec" _ _)
      (fun _ _ => specPredicate_agree shortTag _ _)
  exact FromNode_rel h


/-! ### what the iterators yield -/

theorem mem_Values (it : Iterator) (y : Path × Node) :
    y ∈ it.Values ↔ ∃ x ∈ it, ∃ t, y.1 = x.1 ++ [t] ∧ x.2.Content[t]? = some y.2 := by
  simp only [Iterator.Values, List.mem_flatMap, List.mem_map, mem_children]
  constructor
  · rintro ⟨x, hx, c, ⟨t, h1, h2⟩, rfl⟩
    exact ⟨x, hx, t, by simp [h1], h2⟩
  · rintro ⟨x, hx, t, h1, h2⟩
    exact ⟨x, hx, (t, y.2), ⟨t, by simp, h2⟩, Prod.ext h1.symm rfl⟩

theorem mem_ValuesForMap (it : Iterator) (kp vp : Predicate) (y : Path × Node) :
    y ∈ it.ValuesForMap kp vp ↔
      ∃ x ∈ it, x.2.Kind = Kind.MappingNode ∧ ∃ t k, y.1 = x.1 ++ [2 * t + 1] ∧
        x.2.Content[2 * t]? = some k ∧ x.2.Content[2 * t + 1]? = some y.2 ∧
        kp k = true ∧ vp y.2 = true := by
  simp only [Iterator.ValuesForMap, List.mem_flatMap]
  constructor
  · rintro ⟨x, hx, hy⟩
    split at hy
    · rename_i hm
      simp only [List.mem_filterMap, mem_mapEntries] at hy
      obtain ⟨e, ⟨t, h1, h2, h3⟩, he⟩ := hy
      split at he
      · rename_i hc
        cases he
        simp only [Bool.and_eq_true] at hc
        exact ⟨x, hx, hm.1, t, e.2.1, by simp [h1], h2, h3, hc.1, hc.2⟩
      · cases he
    · cases hy
  · rintro ⟨x, hx, hm, t, k, h1, h2, h3, h4, h5⟩
    refine ⟨x, hx, ?_⟩
    have hlen : 0 < x.2.Content.length := by
      have := (List.getElem?_eq_some_iff.mp h2).1
      omega
    rw [if_pos ⟨hm, hlen⟩]
    simp only [List.mem_filterMap, mem_mapEntries]
    refine ⟨(2 * t + 1, k, y.2), ⟨t, by simp, h2, h3⟩, ?_⟩
    simp [h4, h5, ← h1]


theorem AnyMatch_iff (it : Iterator) (p : Predicate) :
    it.AnyMatch p = true ↔ ∃ x ∈ it, p x.2 = true := by
  rw [AnyMatch_eq_any, List.any_eq_true]

theorem WithStringValue_iff (s : String) (k : Node) :
    WithStringValue shortTag s k = true ↔ StringValue shortTag k = true ∧ k.Value = s := by
  simp [WithStringValue, Intersect]

theorem WithMapKeyValue_iff (kp vp : Predicate) (m : Node) :
    WithMapKeyValue kp vp m = true ↔
      m.Kind = Kind.MappingNode ∧ ∃ t k w, m.Content[2 * t]? = some k ∧
        m.Content[2 * t + 1]? = some w ∧ kp k = true ∧ vp w = true := by
  unfold WithMapKeyValue
  rw [AnyMatch_iff]
  simp only [mem_ValuesForMap, FromNode, List.mem_singleton, All, and_true]
  constructor
  · rintro ⟨y, x, rfl, hm, t, k, _, h2, h3, h4, h5⟩
    exact ⟨hm, t, k, y.2, h2, h3, h4, h5⟩
  · rintro ⟨hm, t, k, w, h2, h3, h4, h5⟩
    exact ⟨([2 * t + 1], w), ([], m), rfl, hm, t, k, rfl, h2, h3, h4, h5⟩

theorem containerPredicate_iff (C : Node) :
    containerPredicate shortTag C = true ↔
      C.Kind = Kind.SequenceNode ∧ ∃ (c : Nat) (E : Node) (d : Nat) (n : Node), C.Content[c]? = some E ∧
        HasEntry shortTag E "image" d n ∧ StringValue shortTag n = true := by
  simp only [containerPredicate, Intersect, List.all_cons, List.all_nil, Bool.and_true,
    Bool.and_eq_true, WithKind, decide_eq_true_eq, WithNestedValue, AnyMatch_iff, mem_Values,
    FromNode, List.mem_singleton, WithMapKeyValue_iff, WithStringValue_iff]
  constructor
  · rintro ⟨hk, y, ⟨x, rfl, c, _, hc⟩, hm, t, k, w, h2, h3, ⟨h4, h5⟩, h6⟩
    exact ⟨hk, c, y.2, 2 * t + 1, w, hc, ⟨hm, t, k, rfl, h2, h4, h5, h3⟩, h6⟩
  · rintro ⟨hk, c, E, d, n, hc, ⟨hm, t, k, _, h2, h4, h5, h3⟩, h6⟩
    exact ⟨hk, ([c], E), ⟨([], C), rfl, c, rfl, hc⟩, hm, t, k, n, h2, h3, ⟨h4, h5⟩, h6⟩

theorem mem_imageit (M : Node) (x : Path × Node) :
    x ∈ imageit shortTag M ↔
      ∃ (a b c d : Nat) (S C E : Node), x.1 = [a, b, c, d] ∧
        HasEntry shortTag M "spec" a S ∧ specPredicate shortTag S = true ∧
        HasEntry shortTag S "containers" b C ∧ containerPredicate shortTag C = true ∧
        C.Content[c]? = some E ∧ HasEntry shortTag E "image" d x.2 ∧
        StringValue shortTag x.2 = true := by
  simp only [imageit, mem_ValuesForMap, mem_Values, FromNode, List.mem_singleton,
    WithStringValue_iff]
  constructor
  · rintro ⟨xE, ⟨xC, ⟨xS, ⟨xM, rfl, hmM, tS, kS, hpS, hS1, hS2, hS3, hS4⟩,
      hmS, tC, kC, hpC, hC1, hC2, hC3, hC4⟩, c, hpE, hE⟩, hmE, tI, kI, hpI, hI1, hI2, hI3, hI4⟩
    refine ⟨2 * tS + 1, 2 * tC + 1, c, 2 * tI + 1, xS.2, xC.2, xE.2, ?_,
      ⟨hmM, tS, kS, rfl, hS1, hS3.1, hS3.2, hS2⟩, hS4,
      ⟨hmS, tC, kC, rfl, hC1, hC3.1, hC3.2, hC2⟩, hC4, hE,
      ⟨hmE, tI, kI, rfl, hI1, hI3.1, hI3.2, hI2⟩, hI4⟩
    rw [hpI, hpE, hpC, hpS]; rfl
  · rintro ⟨a, b, c, d, S, C, E, hp, ⟨hmM, tS, kS, rfl, hS1, hS3, hS3b, hS2⟩, hS4,
      ⟨hmS, tC, kC, rfl, hC1, hC3, hC3b, hC2⟩, hC4, hE,
      ⟨hmE, tI, kI, rfl, hI1, hI3, hI3b, hI2⟩, hI4⟩
    exact ⟨([2 * tS + 1, 2 * tC + 1, c], E), ⟨([2 * tS + 1, 2 * tC + 1], C),
      ⟨([2 * tS + 1], S), ⟨([], M), rfl, hmM, tS, kS, rfl, hS1, hS2, ⟨hS3, hS3b⟩, hS4⟩,
        hmS, tC, kC, rfl, hC1, hC2, ⟨hC3, hC3b⟩, hC4⟩, c, rfl, hE⟩,
      hmE, tI, kI, by rw [hp]; rfl, hI1, hI2, ⟨hI3, hI3b⟩, hI4⟩


theorem HasEntry_WithMapKeyValue {m : Node} {key : String} {i : Nat} {w : Node}
    {vp : Predicate} (h : HasEntry shortTag m key i w) (hw : vp w = true) :
    WithMapKeyValue (WithValue key) vp m = true := by
  obtain ⟨hm, t, k, _, h1, _, h3, h4⟩ := h
  rw [WithMapKeyValue_iff]
  exact ⟨hm, t, k, w, h1, h4, by simp [WithValue, h3], hw⟩

theorem specPredicate_of_entry {S C : Node} {b : Nat}
    (h : HasEntry shortTag S "containers" b C) (hC : containerPredicate shortTag C = true) :
    specPredicate shortTag S = true := by
  have := HasEntry_WithMapKeyValue shortTag h hC
  simp [specPredicate, Intersect, WithKind, h.1, this]

theorem podSpecPredicate_of_entry {M S : Node} {a : Nat}
    (h : HasEntry shortTag M "spec" a S) (hS : specPredicate shortTag S = true) :
    podSpecPredicate shortTag M = true := by
  have := HasEntry_WithMapKeyValue shortTag h hS
  simp [podSpecPredicate, Intersect, WithKind, h.1, this]

/-- The pointers `imageit` yields from a pod spec, in the words of the
structural description. -/
theorem mem_imageit_iff (M : Node) (r : Path) :
    (podSpecPredicate shortTag M = true ∧ r ∈ (imageit shortTag M).map Prod.fst) ↔
      ContainerImageAt shortTag M r := by
  simp only [List.mem_map, mem_imageit]
  constructor
  · rintro ⟨_, x, ⟨a, b, c, d, S, C, E, hp, hS, hSp, hC, hCp, hE, hI, hn⟩, rfl⟩
    have hSk : S.Kind = Kind.MappingNode := hC.1
    have hCk : C.Kind = Kind.SequenceNode := ((containerPredicate_iff shortTag C).mp hCp).1
    exact ⟨a, b, c, d, S, C, E, x.2, hp, hS, hSk, hC, hCk, hE, hI, hn⟩
  · rintro ⟨a, b, c, d, S, C, E, n, hp, hS, _, hC, hCk, hE, hI, hn⟩
    have hCp : containerPredicate shortTag C = true :=
      (containerPredicate_iff shortTag C).mpr ⟨hCk, c, E, d, n, hE, hI, hn⟩
    have hSp := specPredicate_of_entry shortTag hC hCp
    exact ⟨podSpecPredicate_of_entry shortTag hS hSp,
      (r, n), ⟨a, b, c, d, S, C, E, hp, hS, hSp, hC, hCp, hE, hI, hn⟩, rfl⟩

theorem ContainerImageAt_length {M : Node} {r : Path} (h : ContainerImageAt shortTag M r) :
    r.length = 4 := by
  obtain ⟨a, b, c, d, _, _, _, _, rfl, _⟩ := h
  rfl

theorem ContainerImageAt_ValPath {M : Node} {r : Path} (v : Bool)
    (h : ContainerImageAt shortTag M r) : ValPath v M r := by
  obtain ⟨a, b, c, d, S, C, E, n, rfl, hS, _, hC, _, hE, hI, _⟩ := h
  obtain ⟨_, tS, kS, rfl, _, _, _, hS4⟩ := hS
  obtain ⟨_, tC, kC, rfl, _, _, _, hC4⟩ := hC
  obtain ⟨hmE, tI, kI, rfl, _, _, _, hI4⟩ := hI
  refine ⟨S, hS4, C, hC4, E, hE, n, hI4, ?_⟩
  simp [ValPath, hmE]
  omega


/-! ### writing keeps the trees in agreement -/

theorem altRel_modify {R0 R1 : Node → Node → Prop} (g : Node → Node) :
    ∀ (i : Nat) (cs os : List Node), altRel R0 R1 cs os →
      (∀ c o, cs[i]? = some c → os[i]? = some o →
        (i % 2 = 0 → R0 c o → R0 (g c) o) ∧ (i % 2 = 1 → R1 c o → R1 (g c) o)) →
      altRel R0 R1 (cs.modify g i) os := by
  intro i cs
  induction cs generalizing i R0 R1 with
  | nil => intro os h _; simpa using h
  | cons c cs ih =>
    intro os h hg
    cases os with
    | nil => simp [altRel] at h
    | cons o os =>
      cases i with
      | zero =>
        simp only [List.modify_zero_cons]
        exact ⟨(hg c o (by simp) (by simp)).1 (by omega) h.1, h.2⟩
      | succ i =>
        simp only [List.modify_succ_cons]
        refine ⟨h.1, ih i os h.2 ?_⟩
        intro c2 o2 hc ho
        have := hg c2 o2 (by simpa using hc) (by simpa using ho)
        exact ⟨fun hi => this.2 (by omega), fun hi => this.1 (by omega)⟩

theorem Agree_modifyValue (f : String → String) :
    ∀ (q : Path) (n : Nat) (v : Bool) (X O : Node), Agree n v X O → q.length < n →
      ValPath v O q → Agree n v (X.modifyValue q f) O := by
  intro q
  induction q with
  | nil =>
    intro n v X O h hn hv
    cases n with
    | zero => simp at hn
    | succ n =>
      cases X with
      | mk a val cs => exact ⟨h.1, Or.inl hv, h.2.2⟩
  | cons i q ih =>
    intro n v X O h hn hv
    cases n with
    | zero => simp at hn
    | succ n =>
      cases X with
      | mk a val cs =>
        obtain ⟨c0, hc0, hv0⟩ := hv
        refine ⟨h.1, h.2.1, altRel_modify _ i _ _ h.2.2 ?_⟩
        intro c o _ ho
        have hlen : q.length < n := by simpa using hn
        rw [hc0] at ho
        cases ho
        constructor
        · intro hi hco
          refine ih n false c c0 hco hlen ?_
          have : (decide (O.Kind = Kind.MappingNode) && decide (i % 2 = 1)) = false := by
            simp; intro _; omega
          rwa [this] at hv0
        · intro hi hco
          refine ih n _ c c0 hco hlen ?_
          have : (decide (O.Kind = Kind.MappingNode) && decide (i % 2 = 1))
              = decide (O.Kind = Kind.MappingNode) := by
            simp [hi]
          rwa [this] at hv0

theorem Agree_writeAll (im : Path → List (Name × Name)) (n : Nat) (v : Bool) (O : Node) :
    ∀ (l : List Path) (X : Node), Agree n v X O →
      (∀ q ∈ l, q.length < n ∧ ValPath v O q) →
      Agree n v (writeAll str synonyms im l X) O := by
  intro l
  induction l with
  | nil => intro X h _; exact h
  | cons q l ih =>
    intro X h hl
    have hq := hl q (List.mem_cons_self _ _)
    exact ih _ (Agree_modifyValue _ q n v X O h hq.1 hq.2)
      (fun r hr => hl r (List.mem_cons_of_mem _ hr))

/-- The list of pointers `imageit` yields from a node that passes
`podSpecPredicate`, none otherwise. -/
theorem visit_root_agree (im : Path → List (Name × Name)) {v : Bool} (X O : Node)
    (tr : List Path) (h : Agree 4 v X O) :
    ∃ X1, visit shortTag str synonyms im (X, tr) []
        = (X1, tr ++ (if podSpecPredicate shortTag O then (imageit shortTag O).map Prod.fst
            else [])) ∧
      X1 = writeAll str synonyms im
        (if podSpecPredicate shortTag O then (imageit shortTag O).map Prod.fst else []) X ∧
      Agree 5 v X1 O := by
  rw [visit_eq]
  simp only [Node.get?, List.nil_append]
  rw [podSpecPredicate_agree shortTag X O h, imageit_agree shortTag X O h]
  by_cases hp : podSpecPredicate shortTag O = true
  · simp only [hp, if_true]
    refine ⟨_, rfl, rfl, ?_⟩
    refine Agree_writeAll str synonyms im 5 v O _ X (Agree_mono _ _ _ _ h) ?_
    intro q hq
    have hc := (mem_imageit_iff shortTag O q).mp ⟨hp, hq⟩
    exact ⟨by rw [ContainerImageAt_length shortTag hc]; decide,
      ContainerImageAt_ValPath shortTag v hc⟩
  · have hp2 : podSpecPredicate shortTag O = false := by simpa using hp
    rw [hp2]
    exact ⟨X, by simp, by simp [writeAll], Agree_mono _ _ _ _ h⟩


/-! ### the walk, node by node -/

theorem modify_of_getElem? {α : Type} (g : α → α) :
    ∀ (i : Nat) (cs : List α) (c : α), cs[i]? = some c → cs.modify g i = cs.set i (g c) := by
  intro i cs
  induction cs generalizing i with
  | nil => intro c h; simp at h
  | cons a cs ih =>
    intro c h
    cases i with
    | zero => simp at h; simp [h]
    | succ i => simp at h; simp [ih i c h]

theorem set_of_getElem? {α : Type} :
    ∀ (i : Nat) (cs : List α) (c : α), cs[i]? = some c → cs.set i c = cs := by
  intro i cs
  induction cs generalizing i with
  | nil => intro c h; simp at h
  | cons a cs ih =>
    intro c h
    cases i with
    | zero => simp at h; simp [h]
    | succ i => simp at h; simp [ih i c h]

theorem visit_trace (im : Path → List (Name × Name)) (D : Node) (tr : List Path) (p : Path) :
    visit shortTag str synonyms im (D, tr) p
      = ((visit shortTag str synonyms im (D, []) p).1,
          tr ++ (visit shortTag str synonyms im (D, []) p).2) := by
  rw [visit_eq, visit_eq]
  cases D.get? p with
  | none => simp
  | some n =>
    simp only
    split <;> simp

theorem foldl_visit_trace (im : Path → List (Name × Name)) :
    ∀ (L : List Path) (D : Node) (tr : List Path),
      L.foldl (visit shortTag str synonyms im) (D, tr)
        = ((L.foldl (visit shortTag str synonyms im) (D, [])).1,
            tr ++ (L.foldl (visit shortTag str synonyms im) (D, [])).2) := by
  intro L
  induction L with
  | nil => intro D tr; simp
  | cons p L ih =>
    intro D tr
    simp only [List.foldl_cons]
    rw [visit_trace, ih, ih (visit shortTag str synonyms im (D, []) p).1
      (visit shortTag str synonyms im (D, []) p).2]
    simp [List.append_assoc]

theorem visit_cons (im : Path → List (Name × Name)) (a : Attrs) (v : String)
    (cs : List Node) (c : Node) (tr : List Path) (i : Nat) (p : Path) (hc : cs[i]? = some c) :
    visit shortTag str synonyms im (.mk a v cs, tr) (i :: p)
      = (.mk a v (cs.set i (visit shortTag str synonyms (fun q => im (i :: q)) (c, []) p).1),
          tr ++ (visit shortTag str synonyms (fun q => im (i :: q)) (c, []) p).2.map
            (fun q => i :: q)) := by
  rw [visit_eq, visit_eq]
  simp only [Node.get?, Node.Content, hc]
  cases c.get? p with
  | none => simp [set_of_getElem? i cs c hc]
  | some n =>
    simp only
    split
    · have hmap : (imageit shortTag n).map (fun x => i :: p ++ x.1)
          = ((imageit shortTag n).map (fun x => p ++ x.1)).map (fun q => i :: q) := by
        simp
      rw [hmap, writeAll_map_cons, modify_of_getElem? _ i cs c hc]
      simp
    · simp [set_of_getElem? i cs c hc]

theorem foldl_visit_child (im : Path → List (Name × Name)) (a : Attrs) (v : String) (i : Nat) :
    ∀ (L : List Path) (cs : List Node) (c : Node) (tr : List Path), cs[i]? = some c →
      (L.map (fun q => i :: q)).foldl (visit shortTag str synonyms im) (.mk a v cs, tr)
        = (.mk a v (cs.set i
              (L.foldl (visit shortTag str synonyms (fun q => im (i :: q))) (c, [])).1),
            tr ++ (L.foldl (visit shortTag str synonyms (fun q => im (i :: q))) (c, [])).2.map
              (fun q => i :: q)) := by
  intro L
  induction L with
  | nil => intro cs c tr hc; simp [set_of_getElem? i cs c hc]
  | cons p L ih =>
    intro cs c tr hc
    simp only [List.map_cons, List.foldl_cons]
    rw [visit_cons shortTag str synonyms im a v cs c tr i p hc]
    have hi : i < cs.length := (List.getElem?_eq_some_iff.mp hc).1
    generalize hr : visit shortTag str synonyms (fun q => im (i :: q)) (c, []) p = r
    obtain ⟨c1, t1⟩ := r
    rw [ih (cs.set i c1) c1 (tr ++ t1.map (fun q => i :: q)) (by simp [hi])]
    rw [foldl_visit_trace shortTag str synonyms _ L c1 t1]
    simp [List.append_assoc]


theorem getElem?_append_cons {α : Type} (pre : List α) (c : α) (cs : List α) :
    (pre ++ c :: cs)[pre.length]? = some c := by
  induction pre with
  | nil => simp
  | cons a pre ih => simpa using ih

theorem set_append_cons {α : Type} (pre : List α) (c d : α) (cs : List α) :
    (pre ++ c :: cs).set pre.length d = (pre ++ [d]) ++ cs := by
  induction pre with
  | nil => simp
  | cons a pre ih => simp [ih]

theorem recurseList_fst (p : Path) :
    ∀ (cs : List Node), (∀ c ∈ cs, ∀ q, (recurse q c).map Prod.fst
        = ((recurse [] c).map Prod.fst).map (fun r => q ++ r)) →
      ∀ i, (recurseList p i cs).map Prod.fst
        = ((recurseList [] i cs).map Prod.fst).map (fun r => p ++ r) := by
  intro cs
  induction cs with
  | nil => intro _ i; simp [recurseList]
  | cons c cs ih =>
    intro h i
    simp only [recurseList, List.map_append, List.nil_append]
    rw [ih (fun d hd => h d (List.mem_cons_of_mem _ hd)) (i + 1),
      h c (List.mem_cons_self _ _) (p ++ [i]), h c (List.mem_cons_self _ _) [i]]
    simp

theorem recurse_fst : ∀ (X : Node) (p : Path),
    (recurse p X).map Prod.fst = ((recurse [] X).map Prod.fst).map (fun r => p ++ r) := by
  intro X
  induction X using Node.ind with
  | h a v cs ih =>
    intro p
    simp only [recurse, List.map_cons, List.append_nil]
    rw [recurseList_fst p cs ih 0]

theorem walk_children (im : Path → List (Name × Name)) (a : Attrs) (v : String) :
    ∀ (sks : List Node),
      (∀ s ∈ sks, ∀ (X : Node) (w : Bool) (im2 : Path → List (Name × Name)) (tr : List Path),
        Agree 4 w X s →
        ((recurse [] s).map Prod.fst).foldl (visit shortTag str synonyms im2) (X, tr)
          = (writeAll str synonyms im2 (imageFields shortTag s) X,
              tr ++ imageFields shortTag s)) →
      ∀ (i : Nat) (pre cs : List Node) (tr : List Path), pre.length = i →
        List.Forall₂ (fun c s => ∃ w, Agree 4 w c s) cs sks →
        ((recurseList [] i sks).map Prod.fst).foldl (visit shortTag str synonyms im)
            (.mk a v (pre ++ cs), tr)
          = (writeAll str synonyms im (imageFieldsList shortTag i sks) (.mk a v (pre ++ cs)),
              tr ++ imageFieldsList shortTag i sks) := by
  intro sks
  induction sks with
  | nil =>
    intro _ i pre cs tr _ _
    simp [recurseList, imageFieldsList, writeAll]
  | cons s sks ih =>
    intro hs i pre cs tr hpre hrel
    cases hrel with
    | cons hcs hrest =>
      rename_i c cs
      obtain ⟨w, hw⟩ := hcs
      have hget : (pre ++ c :: cs)[i]? = some c := by
        rw [← hpre]; exact getElem?_append_cons pre c cs
      simp only [recurseList, imageFieldsList, List.map_append, List.foldl_append,
        List.nil_append]
      rw [recurse_fst s [i]]
      simp only [List.singleton_append]
      rw [foldl_visit_child shortTag str synonyms im a v i _ (pre ++ c :: cs) c tr hget]
      rw [hs s (List.mem_cons_self _ _) c w _ [] hw]
      simp only [List.nil_append]
      have hset : (pre ++ c :: cs).set i
            (writeAll str synonyms (fun q => im (i :: q)) (imageFields shortTag s) c)
          = (pre ++ [writeAll str synonyms (fun q => im (i :: q)) (imageFields shortTag s) c])
              ++ cs := by
        rw [← hpre]; exact set_append_cons pre c _ cs
      rw [writeAll_append, writeAll_map_cons,
        modify_of_getElem? _ i (pre ++ c :: cs) c hget, hset]
      rw [ih (fun t ht => hs t (List.mem_cons_of_mem _ ht)) (i + 1) _ cs _ (by simp [hpre])
        hrest]
      simp [List.append_assoc]

/-- The outer loop, started anywhere in a tree that agrees with the original
four levels down, writes exactly at the image scalars of the original. -/
theorem walk_from : ∀ (sk X : Node) (w : Bool) (im : Path → List (Name × Name))
    (tr : List Path), Agree 4 w X sk →
    ((recurse [] sk).map Prod.fst).foldl (visit shortTag str synonyms im) (X, tr)
      = (writeAll str synonyms im (imageFields shortTag sk) X,
          tr ++ imageFields shortTag sk) := by
  intro sk
  induction sk using Node.ind with
  | h a0 v0 sks ih =>
    intro X w im tr hX
    simp only [recurse, List.map_cons, List.foldl_cons, imageFields]
    obtain ⟨X1, hv, hX1, hA⟩ := visit_root_agree shortTag str synonyms im X _ tr hX
    rw [hv]
    have hch := Agree_children hA
    cases X1 with
    | mk a1 v1 cs1 =>
      have := walk_children shortTag str synonyms im a1 v1 sks ih 0 [] cs1
        (tr ++ (if podSpecPredicate shortTag (Node.mk a0 v0 sks) then
          (imageit shortTag (Node.mk a0 v0 sks)).map Prod.fst else [])) rfl hch
      simp only [List.nil_append] at this
      rw [this, writeAll_append, ← hX1]
      simp [List.append_assoc]

/-- The walk of `replaceImage` in closed form: it writes at the image scalars
of the document as decoded, each once, and these are the pointers it
reaches. -/
theorem walk_eq (im : Path → List (Name × Name)) (doc : Node) :
    walk shortTag str synonyms im doc
      = (writeAll str synonyms im (imageFields shortTag doc) doc, imageFields shortTag doc) := by
  unfold walk
  simp only [Iterator.RecurseNodes, FromNode, List.flatMap_cons, List.flatMap_nil,
    List.append_nil]
  rw [walk_from shortTag str synonyms doc doc false im [] (Agree_refl _ _ _)]
  simp


/-! ### reading after writing -/

theorem get?_modifyValue_attrs (f : String → String) :
    ∀ (p q : Path) (X : Node),
      ((X.modifyValue q f).get? p).map Node.attrs = (X.get? p).map Node.attrs := by
  intro p
  induction p with
  | nil =>
    intro q X
    cases X with
    | mk a v cs => cases q <;> rfl
  | cons j p ih =>
    intro q X
    cases X with
    | mk a v cs =>
      cases q with
      | nil => rfl
      | cons i q =>
        simp only [Node.modifyValue, Node.get?, Node.Content, List.getElem?_modify]
        cases hj : cs[j]? with
        | none => rfl
        | some c =>
          by_cases hij : i = j
          · simp only [hij, if_true, Option.map_eq_map, Option.map_some']
            exact ih q c
          · simp [hij]

theorem get?_modifyValue_Value (f : String → String) :
    ∀ (p q : Path) (X : Node),
      ((X.modifyValue q f).get? p).map Node.Value
        = (X.get? p).map (fun n => if p = q then f n.Value else n.Value) := by
  intro p
  induction p with
  | nil =>
    intro q X
    cases X with
    | mk a v cs => cases q <;> simp [Node.modifyValue, Node.get?, Node.Value]
  | cons j p ih =>
    intro q X
    cases X with
    | mk a v cs =>
      cases q with
      | nil => simp [Node.modifyValue, Node.get?, Node.Content]
      | cons i q =>
        simp only [Node.modifyValue, Node.get?, Node.Content, List.getElem?_modify]
        cases hj : cs[j]? with
        | none => rfl
        | some c =>
          by_cases hij : i = j
          · simp only [hij, if_true, Option.map_eq_map, Option.map_some']
            rw [ih q c]
            simp
          · have hne : ¬ (j = i) := fun h => hij h.symm
            simp [hij, hne]

theorem get?_writeAll_attrs (im : Path → List (Name × Name)) (p : Path) :
    ∀ (l : List Path) (X : Node),
      ((writeAll str synonyms im l X).get? p).map Node.attrs = (X.get? p).map Node.attrs := by
  intro l
  induction l with
  | nil => intro X; rfl
  | cons q l ih =>
    intro X
    simp only [writeAll, List.foldl_cons] at ih ⊢
    rw [ih, get?_modifyValue_attrs]

theorem get?_writeAll_Value_of_not_mem (im : Path → List (Name × Name)) (p : Path) :
    ∀ (l : List Path) (X : Node), p ∉ l →
      ((writeAll str synonyms im l X).get? p).map Node.Value = (X.get? p).map Node.Value := by
  intro l
  induction l with
  | nil => intro X _; rfl
  | cons q l ih =>
    intro X hp
    simp only [writeAll, List.foldl_cons] at ih ⊢
    rw [ih _ (fun h => hp (List.mem_cons_of_mem _ h)), get?_modifyValue_Value]
    have hne : p ≠ q := fun h => hp (by simp [h])
    simp [hne]

theorem get?_writeAll_Value_of_mem (im : Path → List (Name × Name)) (p : Path) :
    ∀ (l : List Path) (X : Node), p ∈ l → l.Nodup →
      ((writeAll str synonyms im l X).get? p).map Node.Value
        = (X.get? p).map (fun n => replaceValue str synonyms (im p) n.Value) := by
  intro l
  induction l with
  | nil => intro X hp; simp at hp
  | cons q l ih =>
    intro X hp hnd
    rw [List.nodup_cons] at hnd
    by_cases hpq : p = q
    · subst hpq
      have := get?_writeAll_Value_of_not_mem str synonyms im p l
        (X.modifyValue p (replaceValue str synonyms (im p))) hnd.1
      simp only [writeAll, List.foldl_cons] at this ⊢
      rw [this, get?_modifyValue_Value]
      simp
    · have hpl : p ∈ l := by
        rcases List.mem_cons.mp hp with h | h
        · exact absurd h hpq
        · exact h
      have := ih (X.modifyValue q (replaceValue str synonyms (im q))) hpl hnd.2
      simp only [writeAll, List.foldl_cons] at this ⊢
      rw [this]
      have hv := get?_modifyValue_Value (replaceValue str synonyms (im q)) p q X
      simp only [hpq, if_false] at hv
      cases h1 : (X.modifyValue q (replaceValue str synonyms (im q))).get? p <;>
        cases h2 : X.get? p <;> simp_all

theorem modifyValue_eq_self (f : String → String) :
    ∀ (q : Path) (X : Node), (∀ n, X.get? q = some n → f n.Value = n.Value) →
      X.modifyValue q f = X := by
  intro q
  induction q with
  | nil =>
    intro X h
    cases X with
    | mk a v cs =>
      have := h _ rfl
      simp only [Node.modifyValue, Node.Value] at this ⊢
      rw [this]
  | cons i q ih =>
    intro X h
    cases X with
    | mk a v cs =>
      simp only [Node.modifyValue]
      congr 1
      cases hc : cs[i]? with
      | none =>
        exact List.modify_eq_self (by
          rcases Nat.lt_or_ge i cs.length with hlt | hge
          · simp [List.getElem?_eq_getElem hlt] at hc
          · exact hge)
      | some c =>
        rw [modify_of_getElem? _ i cs c hc, ih c, set_of_getElem? i cs c hc]
        intro n hn
        apply h
        simp [Node.get?, Node.Content, hc, hn]

/-! ### the two inner loops -/

theorem replace_synonyms_eq (new : String) :
    ∀ (syns : List Name) (w : String),
      syns.foldl (fun w oi => if w = str oi then new else w) w
        = if w ∈ syns.map str then new else w := by
  intro syns
  induction syns with
  | nil => intro w; simp
  | cons oi syns ih =>
    intro w
    simp only [List.foldl_cons, List.map_cons, List.mem_cons]
    rw [ih]
    by_cases h1 : w = str oi
    · simp only [h1, if_true, true_or]
      split <;> rfl
    · simp [h1]

/-- The loops on one text, pair by pair: a pair whose old reference has the
current text among its synonym strings replaces it by its new string. -/
theorem replaceValue_eq (pairs : List (Name × Name)) (value : String) :
    replaceValue str synonyms pairs value
      = pairs.foldl (fun v pr =>
          if v ∈ synonymStrings str synonyms pr.1 then str pr.2 else v) value := by
  unfold replaceValue synonymStrings
  congr 1
  funext v pr
  exact replace_synonyms_eq str (str pr.2) (synonyms pr.1) v

theorem replaceValue_nil (value : String) : replaceValue str synonyms [] value = value := rfl

theorem replaceValue_cons (pr : Name × Name) (pairs : List (Name × Name)) (value : String) :
    replaceValue str synonyms (pr :: pairs) value
      = replaceValue str synonyms pairs
          (if value ∈ synonymStrings str synonyms pr.1 then str pr.2 else value) := by
  rw [replaceValue_eq, replaceValue_eq]
  rfl

theorem replaceValue_no_match :
    ∀ (pairs : List (Name × Name)) (value : String),
      (∀ pr ∈ pairs, value ∉ synonymStrings str synonyms pr.1) →
      replaceValue str synonyms pairs value = value := by
  intro pairs
  induction pairs with
  | nil => intro value _; rfl
  | cons pr pairs ih =>
    intro value h
    rw [replaceValue_cons, if_neg (h pr (List.mem_cons_self _ _))]
    exact ih value (fun q hq => h q (List.mem_cons_of_mem _ hq))

theorem replaceValue_match (pr : Name × Name) :
    ∀ (pairs : List (Name × Name)) (value : String), pr ∈ pairs →
      value ∈ synonymStrings str synonyms pr.1 →
      (∀ q ∈ pairs, q ≠ pr → value ∉ synonymStrings str synonyms q.1 ∧
        str pr.2 ∉ synonymStrings str synonyms q.1) →
      replaceValue str synonyms pairs value = str pr.2 := by
  intro pairs
  induction pairs with
  | nil => intro value h; simp at h
  | cons q pairs ih =>
    intro value hmem hval hoth
    rw [replaceValue_cons]
    by_cases hq : q = pr
    · subst hq
      rw [if_pos hval]
      -- the text is now the new string; no other pair has it, the same pair keeps it
      clear ih hmem
      have hrest : ∀ r ∈ pairs, r ≠ q → str q.2 ∉ synonymStrings str synonyms r.1 :=
        fun r hr hne => (hoth r (List.mem_cons_of_mem _ hr) hne).2
      clear hoth
      induction pairs with
      | nil => rfl
      | cons r pairs ih2 =>
        rw [replaceValue_cons]
        have hstep : (if str q.2 ∈ synonymStrings str synonyms r.1 then str r.2 else str q.2)
            = str q.2 := by
          by_cases hr : r = q
          · subst hr; split <;> rfl
          · rw [if_neg (hrest r (List.mem_cons_self _ _) hr)]
        rw [hstep]
        exact ih2 (fun s hs hne => hrest s (List.mem_cons_of_mem _ hs) hne)
    · rw [if_neg (hoth q (List.mem_cons_self _ _) hq).1]
      have hmem2 : pr ∈ pairs := by
        rcases List.mem_cons.mp hmem with h | h
        · exact absurd h.symm hq
        · exact h
      exact ih value hmem2 hval (fun r hr hne => hoth r (List.mem_cons_of_mem _ hr) hne)


/-! ### the image scalars of a tree -/

theorem mem_own_iff (M : Node) (r : Path) :
    r ∈ (if podSpecPredicate shortTag M then (imageit shortTag M).map Prod.fst else [])
      ↔ ContainerImageAt shortTag M r := by
  rw [← mem_imageit_iff]
  by_cases hp : podSpecPredicate shortTag M = true
  · simp [hp]
  · simp [hp]

theorem mem_imageFieldsList (p : Path) :
    ∀ (cs : List Node) (i : Nat), p ∈ imageFieldsList shortTag i cs ↔
      ∃ (t : Nat) (c : Node) (q : Path), cs[t]? = some c ∧ p = (i + t) :: q ∧
        q ∈ imageFields shortTag c := by
  intro cs
  induction cs with
  | nil => intro i; simp [imageFieldsList]
  | cons c cs ih =>
    intro i
    simp only [imageFieldsList, List.mem_append, List.mem_map, ih]
    constructor
    · rintro (⟨q, hq, rfl⟩ | ⟨t, d, q, h1, h2, h3⟩)
      · exact ⟨0, c, q, by simp, by simp, hq⟩
      · exact ⟨t + 1, d, q, by simpa using h1, by rw [h2]; congr 1; omega, h3⟩
    · rintro ⟨t, d, q, h1, h2, h3⟩
      cases t with
      | zero =>
        left
        simp at h1
        subst h1
        exact ⟨q, h3, by simp [h2]⟩
      | succ t =>
        right
        exact ⟨t, d, q, by simpa using h1, by rw [h2]; congr 1; omega, h3⟩

/-- The image scalars of a tree are the pointers of the structural
description. -/
theorem mem_imageFields : ∀ (X : Node) (p : Path),
    p ∈ imageFields shortTag X ↔ IsContainerImage shortTag X p := by
  intro X
  induction X using Node.ind with
  | h a v cs ih =>
    intro p
    simp only [imageFields, List.mem_append, mem_own_iff, mem_imageFieldsList]
    constructor
    · rintro (h | ⟨t, c, q, h1, h2, h3⟩)
      · exact ⟨[], p, _, rfl, rfl, h⟩
      · have hc : c ∈ cs := List.getElem?_mem h1
        obtain ⟨q1, r, M, hq, hM, hr⟩ := (ih c hc q).mp h3
        refine ⟨t :: q1, r, M, by simp [h2, hq], ?_, hr⟩
        simp [Node.get?, Node.Content, h1, hM]
    · rintro ⟨q1, r, M, hq, hM, hr⟩
      cases q1 with
      | nil =>
        left
        simp only [Node.get?, Option.some.injEq] at hM
        subst hM
        simpa [hq] using hr
      | cons t q1 =>
        right
        simp only [Node.get?, Node.Content] at hM
        cases hc : cs[t]? with
        | none => simp [hc] at hM
        | some c =>
          simp only [hc] at hM
          exact ⟨t, c, q1 ++ r, hc, by simp [hq],
            (ih c (List.getElem?_mem hc) _).mpr ⟨q1, r, M, rfl, hM, hr⟩⟩

theorem imageFields_length {X : Node} {p : Path} (h : p ∈ imageFields shortTag X) :
    4 ≤ p.length := by
  obtain ⟨q, r, M, rfl, _, hr⟩ := (mem_imageFields shortTag X p).mp h
  simp [ContainerImageAt_length shortTag hr]

/-! ### every image scalar is reached once -/

theorem nodup_extend (G : Path × Node → List (Nat × Node))
    (hG : ∀ x, ((G x).map Prod.fst).Nodup) :
    ∀ (it : Iterator), (it.map Prod.fst).Nodup →
      ((it.flatMap fun x => (G x).map fun c => (x.1 ++ [c.1], c.2)).map Prod.fst).Nodup := by
  intro it
  induction it with
  | nil => intro _; simp
  | cons x it ih =>
    intro h
    rw [List.map_cons, List.nodup_cons] at h
    simp only [List.flatMap_cons, List.map_append, List.map_map]
    rw [List.nodup_append]
    refine ⟨?_, ih h.2, ?_⟩
    · have hinj : Function.Injective (fun j : Nat => x.1 ++ [j]) := by
        intro j k hjk
        simpa using hjk
      have := (hG x).map hinj
      simpa [List.map_map] using this
    · intro p hp1 hp2
      simp only [List.mem_map, Function.comp] at hp1
      obtain ⟨c, _, rfl⟩ := hp1
      simp only [List.mem_map, List.mem_flatMap] at hp2
      obtain ⟨z, ⟨y, hy, d, _, rfl⟩, hz⟩ := hp2
      simp only at hz
      have := (List.append_inj' hz rfl).1
      exact h.1 (by rw [← this]; exact List.mem_map_of_mem _ hy)

theorem filterMap_if {α β : Type} (c : α → Bool) (f : α → β) (l : List α) :
    l.filterMap (fun e => if c e = true then some (f e) else none) = (l.filter c).map f := by
  induction l with
  | nil => rfl
  | cons a l ih =>
    by_cases h : c a = true
    · simp [List.filterMap_cons, List.filter_cons, h, ih]
    · simp [List.filterMap_cons, List.filter_cons, h, ih]

theorem Values_nodup (it : Iterator) (h : (it.map Prod.fst).Nodup) :
    (it.Values.map Prod.fst).Nodup :=
  nodup_extend (fun x => children 0 x.2.Content) (fun _ => children_fst_nodup _ 0) it h

theorem ValuesForMap_nodup (it : Iterator) (kp vp : Predicate) (h : (it.map Prod.fst).Nodup) :
    ((it.ValuesForMap kp vp).map Prod.fst).Nodup := by
  have heq : it.ValuesForMap kp vp
      = it.flatMap fun x =>
          (if x.2.Kind = Kind.MappingNode ∧ 0 < x.2.Content.length then
            ((mapEntries 0 x.2.Content).filter (fun e => kp e.2.1 && vp e.2.2)).map
              (fun e => (e.1, e.2.2))
           else []).map fun c => (x.1 ++ [c.1], c.2) := by
    unfold Iterator.ValuesForMap
    congr 1
    funext x
    split
    · rw [filterMap_if (fun e : Nat × Node × Node => kp e.2.1 && vp e.2.2)
        (fun e : Nat × Node × Node => (x.1 ++ [e.1], e.2.2))]
      simp [List.map_map]
    · rfl
  rw [heq]
  refine nodup_extend _ ?_ it h
  intro x
  split
  · rw [List.map_map]
    exact ((mapEntries_fst_nodup 0 x.2.Content).sublist
      ((List.filter_sublist _).map Prod.fst))
  · simp

theorem imageit_nodup (M : Node) : ((imageit shortTag M).map Prod.fst).Nodup := by
  unfold imageit
  apply ValuesForMap_nodup
  apply Values_nodup
  apply ValuesForMap_nodup
  apply ValuesForMap_nodup
  simp [FromNode]

theorem imageFieldsList_nodup :
    ∀ (cs : List Node), (∀ c ∈ cs, (imageFields shortTag c).Nodup) →
      ∀ i, (imageFieldsList shortTag i cs).Nodup := by
  intro cs
  induction cs with
  | nil => intro _ i; simp [imageFieldsList]
  | cons c cs ih =>
    intro h i
    simp only [imageFieldsList]
    rw [List.nodup_append]
    refine ⟨?_, ih (fun d hd => h d (List.mem_cons_of_mem _ hd)) (i + 1), ?_⟩
    · exact (h c (List.mem_cons_self _ _)).map (fun p q hpq => by simpa using hpq)
    · intro p hp1 hp2
      obtain ⟨q, _, rfl⟩ := List.mem_map.mp hp1
      obtain ⟨t, d, r, _, h2, _⟩ := (mem_imageFieldsList shortTag _ cs (i + 1)).mp hp2
      simp at h2
      omega

/-- No image scalar is reached twice. -/
theorem imageFields_nodup : ∀ (X : Node), (imageFields shortTag X).Nodup := by
  intro X
  induction X using Node.ind with
  | h a v cs ih =>
    simp only [imageFields]
    rw [List.nodup_append]
    refine ⟨?_, imageFieldsList_nodup shortTag cs ih 0, ?_⟩
    · split
      · exact imageit_nodup shortTag _
      · simp
    · intro p hp1 hp2
      have h4 := ContainerImageAt_length shortTag ((mem_own_iff shortTag _ p).mp hp1)
      obtain ⟨t, d, r, _, h2, h3⟩ := (mem_imageFieldsList shortTag p cs 0).mp hp2
      have := imageFields_length shortTag h3
      rw [h2] at h4
      simp at h4
      omega

end

/-! ## replaceImage: the claims -/

theorem rewriteTree_eq {Name : Type} (shortTag : TagFn) (str : Name → String)
    (synonyms : Name → List Name) (imageMap : Path → List (Name × Name)) (doc : Node) :
    rewriteTree shortTag str synonyms imageMap doc
      = writeAll str synonyms imageMap (imageFields shortTag doc) doc := by
  unfold rewriteTree; rw [walk_eq]

theorem locatedImages_eq {Name : Type} (shortTag : TagFn) (str : Name → String)
    (synonyms : Name → List Name) (imageMap : Path → List (Name × Name)) (doc : Node) :
    locatedImages shortTag str synonyms imageMap doc = imageFields shortTag doc := by
  unfold locatedImages; rw [walk_eq]

/-- Every image scalar the walk reaches is written once: its text afterwards
is what the two inner loops make of its text before. -/
theorem rewriteTree_located {Name : Type} (shortTag : TagFn) (str : Name → String)
    (synonyms : Name → List Name) (imageMap : Path → List (Name × Name)) (doc : Node)
    (p : Path) (image : Node)
    (hloc : p ∈ locatedImages shortTag str synonyms imageMap doc)
    (himage : doc.get? p = some image) :
    ((rewriteTree shortTag str synonyms imageMap doc).get? p).map Node.Value
      = some (replaceValue str synonyms (imageMap p) image.Value) := by
  rw [locatedImages_eq] at hloc
  rw [rewriteTree_eq, get?_writeAll_Value_of_mem str synonyms imageMap p _ doc hloc
    (imageFields_nodup shortTag doc), himage]
  rfl

/-- C1: an image scalar `replaceImage` reaches whose text is a synonym
string of the old reference of exactly one pair of the mapping, the new
string of which is not a synonym string of the old reference of any other
pair, carries that new string afterwards, whatever the order in which the
pairs are evaluated. -/
theorem replaceImage_rewrites_by_synonym {Name : Type} (shortTag : TagFn)
    (str : Name → String) (synonyms : Name → List Name)
    (imageMap : Path → List (Name × Name)) (mapping : List (Name × Name)) (doc : Node)
    (p : Path) (image : Node) (old new : Name)
    (horder : ∀ q, (imageMap q).Perm mapping)
    (hloc : p ∈ locatedImages shortTag str synonyms imageMap doc)
    (himage : doc.get? p = some image)
    (hpair : (old, new) ∈ mapping)
    (hsyn : image.Value ∈ synonymStrings str synonyms old)
    (hone : ∀ pr ∈ mapping, pr ≠ (old, new) →
      image.Value ∉ synonymStrings str synonyms pr.1)
    (hnew : ∀ pr ∈ mapping, pr ≠ (old, new) →
      str new ∉ synonymStrings str synonyms pr.1) :
    ((rewriteTree shortTag str synonyms imageMap doc).get? p).map Node.Value
      = some (str new) := by
  rw [rewriteTree_located shortTag str synonyms imageMap doc p image hloc himage]
  congr 1
  refine replaceValue_match str synonyms (old, new) (imageMap p) image.Value
    ((horder p).mem_iff.mpr hpair) hsyn ?_
  intro q hq hne
  have hq2 := (horder p).mem_iff.mp hq
  exact ⟨hone q hq2 hne, hnew q hq2 hne⟩

set_option maxRecDepth 100000 in
/-- C1, on the Deployment of the tests: both the image written `nginx:1.7.9`
and the image written `docker.io/library/nginx:1.7.9` become
`example.com/nginx:1.7.9`. -/
theorem replaceImage_rewrites_by_synonym_witness :
    ((rewriteTree decodedShortTag id sampleSynonyms (fun _ => nginxMapping)
        (deployment "nginx:1.7.9" "docker.io/library/nginx:1.7.9")).get? firstImage).map
        Node.Value = some "example.com/nginx:1.7.9" ∧
    ((rewriteTree decodedShortTag id sampleSynonyms (fun _ => nginxMapping)
        (deployment "nginx:1.7.9" "docker.io/library/nginx:1.7.9")).get? secondImage).map
        Node.Value = some "example.com/nginx:1.7.9" :=
  ⟨replaceImage_rewrites_by_synonym decodedShortTag id sampleSynonyms
      (fun _ => nginxMapping) nginxMapping
      (deployment "nginx:1.7.9" "docker.io/library/nginx:1.7.9") firstImage
      (strNode "nginx:1.7.9") "docker.io/library/nginx:1.7.9" "example.com/nginx:1.7.9"
      (fun _ => List.Perm.refl _) (by decide) rfl (by decide) (by decide)
      (by decide) (by decide),
   replaceImage_rewrites_by_synonym decodedShortTag id sampleSynonyms
      (fun _ => nginxMapping) nginxMapping
      (deployment "nginx:1.7.9" "docker.io/library/nginx:1.7.9") secondImage
      (strNode "docker.io/library/nginx:1.7.9") "docker.io/library/nginx:1.7.9"
      "example.com/nginx:1.7.9"
      (fun _ => List.Perm.refl _) (by decide) rfl (by decide) (by decide)
      (by decide) (by decide)⟩

theorem writeAll_eq_self {Name : Type} (str : Name → String) (synonyms : Name → List Name)
    (imageMap : Path → List (Name × Name)) :
    ∀ (l : List Path) (X : Node),
      (∀ p ∈ l, ∀ n, X.get? p = some n →
        replaceValue str synonyms (imageMap p) n.Value = n.Value) →
      writeAll str synonyms imageMap l X = X := by
  intro l
  induction l with
  | nil => intro X _; rfl
  | cons q l ih =>
    intro X h
    have hq : X.modifyValue q (replaceValue str synonyms (imageMap q)) = X :=
      modifyValue_eq_self _ q X (h q (List.mem_cons_self _ _))
    simp only [writeAll, List.foldl_cons] at ih ⊢
    rw [hq]
    exact ih X (fun p hp => h p (List.mem_cons_of_mem _ hp))

theorem replaceImage_of_decoded {Name : Type} (Unmarshal : List UInt8 → Except String Node)
    (Marshal : Node → Except String (List UInt8)) (shortTag : TagFn)
    (str : Name → String) (synonyms : Name → List Name)
    (manifest : List UInt8) (imageMap : Path → List (Name × Name)) (doc : Node)
    (hdoc : Unmarshal manifest = .ok doc) :
    replaceImage Unmarshal Marshal shortTag str synonyms manifest imageMap
      = match Marshal (rewriteTree shortTag str synonyms imageMap doc) with
        | .error err => .panicked err
        | .ok out => .returned out := by
  simp only [replaceImage, hdoc]

/-- C2: when no image scalar `replaceImage` reaches has a text that is a
synonym string of an old reference of the mapping (so for the empty mapping),
the tree handed to the encoder is the decoded tree itself, and the call ends
as encoding the decoded tree ends. -/
theorem replaceImage_no_match_identity {Name : Type}
    (Unmarshal : List UInt8 → Except String Node)
    (Marshal : Node → Except String (List UInt8)) (shortTag : TagFn)
    (str : Name → String) (synonyms : Name → List Name)
    (manifest : List UInt8) (imageMap : Path → List (Name × Name))
    (mapping : List (Name × Name)) (doc : Node)
    (hdoc : Unmarshal manifest = .ok doc)
    (horder : ∀ q, (imageMap q).Perm mapping)
    (hno : ∀ p ∈ locatedImages shortTag str synonyms imageMap doc, ∀ image,
      doc.get? p = some image →
      ∀ pr ∈ mapping, image.Value ∉ synonymStrings str synonyms pr.1) :
    rewriteTree shortTag str synonyms imageMap doc = doc ∧
    replaceImage Unmarshal Marshal shortTag str synonyms manifest imageMap
      = match Marshal doc with
        | .error err => .panicked err
        | .ok out => .returned out := by
  have htree : rewriteTree shortTag str synonyms imageMap doc = doc := by
    rw [rewriteTree_eq]
    apply writeAll_eq_self
    intro p hp n hn
    rw [← locatedImages_eq shortTag str synonyms imageMap] at hp
    exact replaceValue_no_match str synonyms _ _
      (fun pr hpr => hno p hp n hn pr ((horder p).mem_iff.mp hpr))
  refine ⟨htree, ?_⟩
  rw [replaceImage_of_decoded Unmarshal Marshal shortTag str synonyms manifest imageMap doc
    hdoc, htree]

/-- C2, for the empty mapping on the sample Deployment. -/
theorem replaceImage_no_match_identity_witness :
    rewriteTree decodedShortTag id sampleSynonyms (fun _ => [])
        (deployment "nginx:1.7.9" "busybox") = deployment "nginx:1.7.9" "busybox" ∧
    replaceImage sampleUnmarshal sampleMarshal decodedShortTag id sampleSynonyms [] (fun _ => [])
      = match sampleMarshal (deployment "nginx:1.7.9" "busybox") with
        | .error err => .panicked err
        | .ok out => .returned out :=
  replaceImage_no_match_identity sampleUnmarshal sampleMarshal decodedShortTag id
    sampleSynonyms [] (fun _ => []) [] (deployment "nginx:1.7.9" "busybox") rfl
    (fun _ => List.Perm.refl _) (fun _ _ _ _ _ hpr => absurd hpr (List.not_mem_nil _))

/-- C3: `replaceImage` changes nothing but the text of the image scalars it
reaches: at every pointer the tree handed to the encoder has a node exactly
when the decoded tree has one, with the same kind, style, tag, anchor,
comments and position, and away from the image scalars reached with the same
text. -/
theorem replaceImage_frame {Name : Type} (shortTag : TagFn) (str : Name → String)
    (synonyms : Name → List Name) (imageMap : Path → List (Name × Name)) (doc : Node) :
    (∀ p, ((rewriteTree shortTag str synonyms imageMap doc).get? p).map Node.attrs
        = (doc.get? p).map Node.attrs) ∧
    (∀ p, p ∉ locatedImages shortTag str synonyms imageMap doc →
      ((rewriteTree shortTag str synonyms imageMap doc).get? p).map Node.Value
        = (doc.get? p).map Node.Value) := by
  constructor
  · intro p
    rw [rewriteTree_eq]
    exact get?_writeAll_attrs str synonyms imageMap p _ doc
  · intro p hp
    rw [locatedImages_eq] at hp
    rw [rewriteTree_eq]
    exact get?_writeAll_Value_of_not_mem str synonyms imageMap p _ doc hp

theorem replaceValue_append {Name : Type} (str : Name → String)
    (synonyms : Name → List Name) (l1 l2 : List (Name × Name)) (value : String) :
    replaceValue str synonyms (l1 ++ l2) value
      = replaceValue str synonyms l2 (replaceValue str synonyms l1 value) := by
  unfold replaceValue
  rw [List.foldl_append]

set_option maxRecDepth 100000 in
/-- C4 as stated fails: with the pairs `a -> b`, `b -> c` evaluated in this
order, the image `example.com/a:1` ends as `example.com/c:1`, not as the new
string `example.com/b:1` of the first pair that matches its original text:
the second pair changes the field again. -/
theorem first_match_wins_counterexample :
    firstImage ∈ locatedImages decodedShortTag id sampleSynonyms (fun _ => chainMapping)
        (deployment "example.com/a:1" "busybox") ∧
    ((deployment "example.com/a:1" "busybox").get? firstImage).map Node.Value
        = some "example.com/a:1" ∧
    firstMatchValue id sampleSynonyms chainMapping "example.com/a:1" = "example.com/b:1" ∧
    ((rewriteTree decodedShortTag id sampleSynonyms (fun _ => chainMapping)
        (deployment "example.com/a:1" "busybox")).get? firstImage).map Node.Value
        = some "example.com/c:1" ∧
    ((rewriteTree decodedShortTag id sampleSynonyms (fun _ => chainMapping)
        (deployment "example.com/a:1" "busybox")).get? firstImage).map Node.Value
        ≠ some (firstMatchValue id sampleSynonyms chainMapping "example.com/a:1") := by
  refine ⟨by decide, by decide, by decide, by decide, by decide⟩

/-- C4, amended: every image scalar `replaceImage` reaches ends with what the
pairs, taken in evaluation order, make of its original text, each pair
replacing the text as it then is by its new string when that text is a
synonym string of its old reference.  So the scalar keeps its text when no
pair matches it, and it ends with the new string of the first pair matching
its original text when that string is not a synonym string of the old
reference of a pair evaluated later. -/
theorem replaceImage_pairs_in_order {Name : Type} (shortTag : TagFn) (str : Name → String)
    (synonyms : Name → List Name) (imageMap : Path → List (Name × Name)) (doc : Node)
    (p : Path) (image : Node)
    (hloc : p ∈ locatedImages shortTag str synonyms imageMap doc)
    (himage : doc.get? p = some image) :
    ((rewriteTree shortTag str synonyms imageMap doc).get? p).map Node.Value
        = some ((imageMap p).foldl (fun v pr =>
            if v ∈ synonymStrings str synonyms pr.1 then str pr.2 else v) image.Value) ∧
    ((∀ pr ∈ imageMap p, image.Value ∉ synonymStrings str synonyms pr.1) →
      ((rewriteTree shortTag str synonyms imageMap doc).get? p).map Node.Value
        = some image.Value) ∧
    (∀ before old new after, imageMap p = before ++ (old, new) :: after →
      (∀ pr ∈ before, image.Value ∉ synonymStrings str synonyms pr.1) →
      image.Value ∈ synonymStrings str synonyms old →
      (∀ pr ∈ after, str new ∉ synonymStrings str synonyms pr.1) →
      ((rewriteTree shortTag str synonyms imageMap doc).get? p).map Node.Value
        = some (str new)) := by
  have h := rewriteTree_located shortTag str synonyms imageMap doc p image hloc himage
  refine ⟨by rw [h, replaceValue_eq], ?_, ?_⟩
  · intro hno
    rw [h, replaceValue_no_match str synonyms _ _ hno]
  · intro before old new after hsplit hbefore hold hafter
    rw [h, hsplit, replaceValue_append, replaceValue_no_match str synonyms _ _ hbefore,
      replaceValue_cons, if_pos hold, replaceValue_no_match str synonyms _ _ hafter]

set_option maxRecDepth 100000 in
/-- C4 amended, on the sample Deployment: with `a -> b` alone the image
`example.com/a:1` ends as `example.com/b:1`. -/
theorem replaceImage_pairs_in_order_witness :
    ((rewriteTree decodedShortTag id sampleSynonyms
        (fun _ => [("example.com/a:1", "example.com/b:1")])
        (deployment "example.com/a:1" "busybox")).get? firstImage).map Node.Value
      = some "example.com/b:1" :=
  (replaceImage_pairs_in_order decodedShortTag id sampleSynonyms
    (fun _ => [("example.com/a:1", "example.com/b:1")])
    (deployment "example.com/a:1" "busybox") firstImage (strNode "example.com/a:1")
    (by decide) rfl).2.2 [] "example.com/a:1" "example.com/b:1" [] rfl
    (by decide) (by decide) (by decide)

/-- C5: the image scalars `replaceImage` reaches are exactly the nodes that
are, for some mapping node `M` of the tree at any depth, the string scalar
value of a string key `image` in a mapping element of a sequence that is the
value of a string key `containers` in a mapping that is the value of a string
key `spec` of `M`; and each of them is reached once. -/
theorem replaceImage_locates_container_images {Name : Type} (shortTag : TagFn)
    (str : Name → String) (synonyms : Name → List Name)
    (imageMap : Path → List (Name × Name)) (doc : Node) :
    (∀ p, p ∈ locatedImages shortTag str synonyms imageMap doc
      ↔ IsContainerImage shortTag doc p) ∧
    (locatedImages shortTag str synonyms imageMap doc).Nodup := by
  rw [locatedImages_eq]
  exact ⟨mem_imageFields shortTag doc, imageFields_nodup shortTag doc⟩

/-- `replaceImage` panics when the manifest does not decode. -/
theorem replaceImage_decode_error {Name : Type} (Unmarshal : List UInt8 → Except String Node)
    (Marshal : Node → Except String (List UInt8)) (shortTag : TagFn)
    (str : Name → String) (synonyms : Name → List Name)
    (manifest : List UInt8) (imageMap : Path → List (Name × Name)) (err : String)
    (herr : Unmarshal manifest = .error err) :
    replaceImage Unmarshal Marshal shortTag str synonyms manifest imageMap
      = .panicked err := by
  unfold replaceImage
  rw [herr]

/-- `replaceImage` panics when the rewritten tree does not encode. -/
theorem replaceImage_encode_error {Name : Type} (Unmarshal : List UInt8 → Except String Node)
    (Marshal : Node → Except String (List UInt8)) (shortTag : TagFn)
    (str : Name → String) (synonyms : Name → List Name)
    (manifest : List UInt8) (imageMap : Path → List (Name × Name)) (doc : Node)
    (err : String) (hdoc : Unmarshal manifest = .ok doc)
    (herr : Marshal (rewriteTree shortTag str synonyms imageMap doc) = .error err) :
    replaceImage Unmarshal Marshal shortTag str synonyms manifest imageMap
      = .panicked err := by
  rw [replaceImage_of_decoded Unmarshal Marshal shortTag str synonyms manifest imageMap doc
    hdoc, herr]

/-- C6 fails on the code: on the manifest `a: [`, which yaml.v3 rejects,
`replaceImage` does not hand an error back, it panics with the decoder's
error; and it panics in the same way when the encoder fails. -/
theorem replaceImage_panics_on_bad_manifest :
    replaceImage failingUnmarshal sampleMarshal decodedShortTag id sampleSynonyms
        [0x61, 0x3a, 0x20, 0x5b] (fun _ => nginxMapping)
      = Outcome.panicked "yaml: line 1: did not find expected node content" ∧
    replaceImage sampleUnmarshal (fun _ => Except.error "yaml: cannot encode")
        decodedShortTag id sampleSynonyms [] (fun _ => nginxMapping)
      = Outcome.panicked "yaml: cannot encode" :=
  ⟨replaceImage_decode_error failingUnmarshal sampleMarshal decodedShortTag id
      sampleSynonyms _ _ _ rfl,
   replaceImage_encode_error sampleUnmarshal _ decodedShortTag id sampleSynonyms _ _
      (deployment "nginx:1.7.9" "busybox") _ rfl rfl⟩

set_option maxRecDepth 100000 in
/-- C10 as stated fails: the pairs `a -> b`, `b -> c` do not overlap, yet
evaluated in this order they turn the image `example.com/a:1` into
`example.com/c:1`, and in the other order into `example.com/b:1`. -/
theorem order_independence_counterexample :
    NonOverlapping id sampleSynonyms chainMapping ∧
    chainMapping.reverse.Perm chainMapping ∧
    ((rewriteTree decodedShortTag id sampleSynonyms (fun _ => chainMapping)
        (deployment "example.com/a:1" "busybox")).get? firstImage).map Node.Value
      = some "example.com/c:1" ∧
    ((rewriteTree decodedShortTag id sampleSynonyms (fun _ => chainMapping.reverse)
        (deployment "example.com/a:1" "busybox")).get? firstImage).map Node.Value
      = some "example.com/b:1" ∧
    rewriteTree decodedShortTag id sampleSynonyms (fun _ => chainMapping)
        (deployment "example.com/a:1" "busybox")
      ≠ rewriteTree decodedShortTag id sampleSynonyms (fun _ => chainMapping.reverse)
        (deployment "example.com/a:1" "busybox") := by
  refine ⟨by unfold NonOverlapping; decide, by decide, by decide, by decide, ?_⟩
  intro h
  have h2 := congrArg (fun d => (d.get? firstImage).map Node.Value) h
  revert h2
  decide

theorem replaceValue_order_free {Name : Type} (str : Name → String)
    (synonyms : Name → List Name) (mapping l1 l2 : List (Name × Name))
    (hover : NonOverlapping str synonyms mapping) (hchain : NoChain str synonyms mapping)
    (h1 : l1.Perm mapping) (h2 : l2.Perm mapping) (value : String) :
    replaceValue str synonyms l1 value = replaceValue str synonyms l2 value := by
  by_cases hex : ∃ pr ∈ mapping, value ∈ synonymStrings str synonyms pr.1
  · obtain ⟨pr, hpr, hval⟩ := hex
    have hoth : ∀ q ∈ mapping, q ≠ pr → value ∉ synonymStrings str synonyms q.1 ∧
        str pr.2 ∉ synonymStrings str synonyms q.1 :=
      fun q hq hne => ⟨hover pr hpr q hq (fun h => hne h.symm) value hval,
        hchain pr hpr q hq (fun h => hne h.symm)⟩
    rw [replaceValue_match str synonyms pr l1 value (h1.mem_iff.mpr hpr) hval
        (fun q hq => hoth q (h1.mem_iff.mp hq)),
      replaceValue_match str synonyms pr l2 value (h2.mem_iff.mpr hpr) hval
        (fun q hq => hoth q (h2.mem_iff.mp hq))]
  · have hno : ∀ pr ∈ mapping, value ∉ synonymStrings str synonyms pr.1 :=
      fun pr hpr hval => hex ⟨pr, hpr, hval⟩
    rw [replaceValue_no_match str synonyms l1 value (fun pr hpr => hno pr (h1.mem_iff.mp hpr)),
      replaceValue_no_match str synonyms l2 value (fun pr hpr => hno pr (h2.mem_iff.mp hpr))]

/-- C10, amended: for a mapping in which no string is a synonym string of the
old references of two different pairs and the string of no new reference is
a synonym string of the old reference of another pair, the tree
`replaceImage` produces is the same for every order in which the pairs are
evaluated, at every image scalar. -/
theorem replaceImage_order_independent {Name : Type} (shortTag : TagFn)
    (str : Name → String) (synonyms : Name → List Name)
    (mapping : List (Name × Name)) (order1 order2 : Path → List (Name × Name))
    (doc : Node)
    (hover : NonOverlapping str synonyms mapping)
    (hchain : NoChain str synonyms mapping)
    (h1 : ∀ q, (order1 q).Perm mapping) (h2 : ∀ q, (order2 q).Perm mapping) :
    rewriteTree shortTag str synonyms order1 doc
      = rewriteTree shortTag str synonyms order2 doc := by
  rw [rewriteTree_eq, rewriteTree_eq]
  unfold writeAll
  congr 1
  funext d p
  congr 1
  funext value
  exact replaceValue_order_free str synonyms mapping _ _ hover hchain (h1 p) (h2 p) value

set_option maxRecDepth 100000 in
/-- C10 amended, on the sample Deployment with a two-pair mapping in its two
orders. -/
theorem replaceImage_order_independent_witness :
    rewriteTree decodedShortTag id sampleSynonyms (fun _ => disjointMapping)
        (deployment "nginx:1.7.9" "busybox")
      = rewriteTree decodedShortTag id sampleSynonyms (fun _ => disjointMapping.reverse)
        (deployment "nginx:1.7.9" "busybox") :=
  replaceImage_order_independent decodedShortTag id sampleSynonyms disjointMapping
    (fun _ => disjointMapping) (fun _ => disjointMapping.reverse)
    (deployment "nginx:1.7.9" "busybox")
    (by unfold NonOverlapping; decide) (by unfold NoChain; decide)
    (fun _ => List.Perm.refl _) (fun _ => List.reverse_perm _)

/-! ## FindImages and ContainerImages: the claims -/

theorem ContainerImages_loop_eq {Doc : Type} (lib : Libs Doc) :
    ∀ (stream : List (Decoded Doc)) (imgs : images.Set),
      ContainerImages.loop lib stream imgs = FindImages.loop lib stream imgs := by
  intro stream
  induction stream with
  | nil => intro imgs; rfl
  | cons d stream ih =>
    intro imgs
    cases d with
    | failure err => rfl
    | document m =>
      simp only [ContainerImages.loop, FindImages.loop, ih]

theorem ContainerImages_eq_FindImages {Doc : Type} (lib : Libs Doc)
    (ReadFile : String → Except String (List UInt8)) (manifestPath : String)
    (data : List UInt8) (hread : ReadFile manifestPath = .ok data) :
    ContainerImages lib ReadFile manifestPath = FindImages lib data := by
  simp only [ContainerImages, FindImages, hread, ContainerImages_loop_eq]

theorem FindImages_loop_document_ok {Doc : Type} (lib : Libs Doc) (m : Doc)
    (rest : List (Decoded Doc)) (imgs : images.Set) (buf : String) (set : images.Set)
    (hparse : lib.Parse containerTemplate = none) (hexec : lib.Execute m = .ok buf)
    (hnew : images.New lib.canonical (filterEmpty (Split buf ',')) = .ok set) :
    FindImages.loop lib (.document m :: rest) imgs
      = FindImages.loop lib rest (images.Set.Union imgs set) := by
  simp only [FindImages.loop, hparse, hexec, hnew]

theorem FindImages_loop_not_found {Doc : Type} (lib : Libs Doc) (m : Doc)
    (rest : List (Decoded Doc)) (imgs : images.Set) (err : String)
    (hparse : lib.Parse containerTemplate = none) (hexec : lib.Execute m = .error err)
    (hmsg : Contains err "is not found" = true) :
    FindImages.loop lib (.document m :: rest) imgs = FindImages.loop lib rest imgs := by
  simp only [FindImages.loop, hparse, hexec, hmsg, if_true]

theorem FindImages_loop_all_ok {Doc : Type} (lib : Libs Doc)
    (hparse : lib.Parse containerTemplate = none) :
    ∀ (docs : List Doc) (sets : List images.Set) (imgs : images.Set),
      List.Forall₂ (fun m set => ∃ buf, lib.Execute m = .ok buf ∧
        images.New lib.canonical (filterEmpty (Split buf ',')) = .ok set) docs sets →
      FindImages.loop lib (docs.map Decoded.document) imgs
        = (sets.foldl images.Set.Union imgs, none) := by
  intro docs sets imgs h
  induction h generalizing imgs with
  | nil => rfl
  | cons hms _ ih =>
    obtain ⟨buf, hexec, hnew⟩ := hms
    rw [List.map_cons, FindImages_loop_document_ok lib _ _ _ buf _ hparse hexec hnew, ih]
    rfl

/-- C7: when every document of the stream decodes, the template parses, the
query succeeds on every document and every image string it collects parses,
`FindImages` returns no error and the set built from `images.Empty` by taking,
document after document in stream order, the `Union` with `images.New` of
the strings collected from the document; and so does `ContainerImages` on a
file with the same bytes. -/
theorem FindImages_unions_documents {Doc : Type} (lib : Libs Doc) (r : List UInt8)
    (docs : List Doc) (sets : List images.Set)
    (hdecode : lib.Decode r = docs.map Decoded.document)
    (hparse : lib.Parse containerTemplate = none)
    (hdocs : List.Forall₂ (fun m set => ∃ buf, lib.Execute m = .ok buf ∧
      images.New lib.canonical (filterEmpty (Split buf ',')) = .ok set) docs sets) :
    FindImages lib r = (sets.foldl images.Set.Union images.Empty, none) ∧
    ∀ (ReadFile : String → Except String (List UInt8)) (manifestPath : String),
      ReadFile manifestPath = .ok r →
      ContainerImages lib ReadFile manifestPath
        = (sets.foldl images.Set.Union images.Empty, none) := by
  have h : FindImages lib r = (sets.foldl images.Set.Union images.Empty, none) := by
    unfold FindImages
    rw [hdecode]
    exact FindImages_loop_all_ok lib hparse docs sets _ hdocs
  refine ⟨h, ?_⟩
  intro ReadFile manifestPath hread
  rw [ContainerImages_eq_FindImages lib ReadFile manifestPath r hread, h]

/-- C7, on a stream of a Pod with the images `b:v2`, `a:v1` and a Deployment
with the image `a:v1`. -/
theorem FindImages_unions_documents_witness :
    FindImages sampleLibs [3, 1]
      = ({"docker.io/library/a:v1", "docker.io/library/b:v2"}, none) ∧
    ContainerImages sampleLibs (fun _ => Except.ok [3, 1]) "manifest.yaml"
      = ({"docker.io/library/a:v1", "docker.io/library/b:v2"}, none) :=
  have h := FindImages_unions_documents sampleLibs [3, 1]
    [SampleDoc.workload ["b:v2", "a:v1"], SampleDoc.workload ["a:v1"]]
    [{"docker.io/library/b:v2", "docker.io/library/a:v1"}, {"docker.io/library/a:v1"}]
    rfl rfl
    (List.Forall₂.cons ⟨"b:v2,a:v1,", rfl, rfl⟩
      (List.Forall₂.cons ⟨"a:v1,", rfl, rfl⟩ List.Forall₂.nil))
  ⟨h.1.trans (by decide), (h.2 _ _ rfl).trans (by decide)⟩

theorem FindImages_loop_congr {Doc : Type} (lib : Libs Doc) (d : Decoded Doc)
    (s1 s2 : List (Decoded Doc))
    (h : ∀ imgs, FindImages.loop lib s1 imgs = FindImages.loop lib s2 imgs)
    (imgs : images.Set) :
    FindImages.loop lib (d :: s1) imgs = FindImages.loop lib (d :: s2) imgs := by
  cases d with
  | failure err => rfl
  | document m => simp only [FindImages.loop, h]

theorem FindImages_loop_skip {Doc : Type} (lib : Libs Doc) (m : Doc)
    (after : List (Decoded Doc))
    (hparse : lib.Parse containerTemplate = none)
    (hnone : (∃ err, lib.Execute m = .error err ∧ Contains err "is not found" = true) ∨
      (∃ buf, lib.Execute m = .ok buf ∧ filterEmpty (Split buf ',') = [])) :
    ∀ (before : List (Decoded Doc)) (imgs : images.Set),
      FindImages.loop lib (before ++ .document m :: after) imgs
        = FindImages.loop lib (before ++ after) imgs := by
  intro before
  induction before with
  | nil =>
    intro imgs
    rcases hnone with ⟨err, hexec, hmsg⟩ | ⟨buf, hexec, hempty⟩
    · exact FindImages_loop_not_found lib m after imgs err hparse hexec hmsg
    · rw [List.nil_append, List.nil_append,
        FindImages_loop_document_ok lib m after imgs buf ∅ hparse hexec (by rw [hempty]; rfl)]
      simp [images.Set.Union]
  | cons d before ih =>
    intro imgs
    exact FindImages_loop_congr lib d _ _ ih imgs

/-- C8: a document on which the query matches nothing (it reports that a
field is not found, or it yields no image string) does not make the scan
fail and adds nothing: `FindImages` returns on the stream what it returns on
the stream without that document, the later documents included. -/
theorem FindImages_skips_unmatched {Doc : Type} (lib : Libs Doc) (r r2 : List UInt8)
    (before after : List (Decoded Doc)) (m : Doc)
    (hparse : lib.Parse containerTemplate = none)
    (hr : lib.Decode r = before ++ .document m :: after)
    (hr2 : lib.Decode r2 = before ++ after)
    (hnone : (∃ err, lib.Execute m = .error err ∧ Contains err "is not found" = true) ∨
      (∃ buf, lib.Execute m = .ok buf ∧ filterEmpty (Split buf ',') = [])) :
    FindImages lib r = FindImages lib r2 := by
  unfold FindImages
  rw [hr, hr2]
  exact FindImages_loop_skip lib m after hparse hnone before _

/-- C8, on a Deployment with the image `a:v1` followed by a ConfigMap and a
Pod: the result is that of the stream without the ConfigMap, and for the
Deployment and the ConfigMap alone the set is `docker.io/library/a:v1`. -/
theorem FindImages_skips_unmatched_witness :
    FindImages sampleLibs [1, 0, 3] = FindImages sampleLibs [1, 3] ∧
    FindImages sampleLibs [1, 0] = ({"docker.io/library/a:v1"}, none) :=
  ⟨FindImages_skips_unmatched sampleLibs [1, 0, 3] [1, 3]
      [Decoded.document (SampleDoc.workload ["a:v1"])]
      [Decoded.document (SampleDoc.workload ["b:v2", "a:v1"])] SampleDoc.configMap
      rfl rfl rfl (Or.inl ⟨"spec is not found", rfl, by decide⟩),
   (FindImages_skips_unmatched sampleLibs [1, 0] [1]
      [Decoded.document (SampleDoc.workload ["a:v1"])] [] SampleDoc.configMap
      rfl rfl rfl (Or.inl ⟨"spec is not found", rfl, by decide⟩)).trans
      (by decide)⟩

theorem FindImages_loop_error_empty {Doc : Type} (lib : Libs Doc) :
    ∀ (stream : List (Decoded Doc)) (imgs : images.Set),
      (FindImages.loop lib stream imgs).2 ≠ none →
      (FindImages.loop lib stream imgs).1 = images.Empty := by
  intro stream
  induction stream with
  | nil => intro imgs h; exact absurd rfl h
  | cons d stream ih =>
    intro imgs
    cases d with
    | failure err => intro _; rfl
    | document m =>
      simp only [FindImages.loop]
      cases lib.Parse containerTemplate with
      | some err => intro _; rfl
      | none =>
        cases lib.Execute m with
        | error err =>
          simp only
          split
          · exact ih imgs
          · intro _; rfl
        | ok buf =>
          simp only
          cases images.New lib.canonical (filterEmpty (Split buf ',')) with
          | error err => intro _; rfl
          | ok set => exact ih _

theorem FindImages_loop_append {Doc : Type} (lib : Libs Doc) (rest : List (Decoded Doc)) :
    ∀ (before : List (Decoded Doc)) (imgs : images.Set),
      (FindImages.loop lib before imgs).2 = none →
      FindImages.loop lib (before ++ rest) imgs
        = FindImages.loop lib rest (FindImages.loop lib before imgs).1 := by
  intro before
  induction before with
  | nil => intro imgs _; rfl
  | cons d before ih =>
    intro imgs
    cases d with
    | failure err => intro h; cases h
    | document m =>
      simp only [List.cons_append, FindImages.loop]
      cases lib.Parse containerTemplate with
      | some err => intro h; cases h
      | none =>
        cases lib.Execute m with
        | error err =>
          simp only
          split
          · exact ih imgs
          · intro h; cases h
        | ok buf =>
          simp only
          cases images.New lib.canonical (filterEmpty (Split buf ',')) with
          | error err => intro h; cases h
          | ok set => exact ih _

/-- C9: `FindImages` never returns a partial set.  Whenever it returns an
error the set is `images.Empty`; the end of the stream alone is no error; and
when the documents before one scan without error and that one fails (the
decoder reports an error other than the end of the stream, the query fails
with an error other than not-found, or `images.New` rejects a collected
string), `FindImages` returns that error with `images.Empty`, whatever the
earlier documents contributed and whatever follows. -/
theorem FindImages_no_partial_set {Doc : Type} (lib : Libs Doc) (r : List UInt8) :
    ((FindImages lib r).2 ≠ none → (FindImages lib r).1 = images.Empty) ∧
    (lib.Decode r = [] → FindImages lib r = (images.Empty, none)) ∧
    (∀ (r0 : List UInt8) (bad : Decoded Doc) (after : List (Decoded Doc)),
      lib.Decode r = lib.Decode r0 ++ bad :: after →
      (FindImages lib r0).2 = none →
      (∀ err, bad = .failure err →
        FindImages lib r = (images.Empty, some ("decode failed: " ++ err))) ∧
      (∀ m err, bad = .document m → lib.Parse containerTemplate = none →
        lib.Execute m = .error err → Contains err "is not found" = false →
        FindImages lib r
          = (images.Empty, some ("search manifest for containers: " ++ err))) ∧
      (∀ m buf err, bad = .document m → lib.Parse containerTemplate = none →
        lib.Execute m = .ok buf →
        images.New lib.canonical (filterEmpty (Split buf ',')) = .error err →
        FindImages lib r = (images.Empty, some err))) := by
  refine ⟨FindImages_loop_error_empty lib _ _, ?_, ?_⟩
  · intro h
    unfold FindImages
    rw [h]
    rfl
  · intro r0 bad after hr h0
    have hsplit : FindImages lib r
        = FindImages.loop lib (bad :: after) (FindImages lib r0).1 := by
      unfold FindImages
      rw [hr]
      exact FindImages_loop_append lib _ _ _ h0
    refine ⟨?_, ?_, ?_⟩
    · intro err hbad
      rw [hsplit, hbad]
      rfl
    · intro m err hbad hparse hexec hmsg
      rw [hsplit, hbad]
      simp only [FindImages.loop, hparse, hexec, hmsg]
      rfl
    · intro m buf err hbad hparse hexec hnew
      rw [hsplit, hbad]
      simp only [FindImages.loop, hparse, hexec, hnew]

/-- C9, on a Deployment with the image `a:v1` followed by a Pod with the
image `x@bad` and a further Pod: the error of the reference parser and the
empty set; and on a Deployment followed by bytes that do not decode. -/
theorem FindImages_no_partial_set_witness :
    FindImages sampleLibs [1, 2, 3]
      = (images.Empty, some "invalid image reference: x@bad") ∧
    FindImages sampleLibs [1, 9, 3]
      = (images.Empty, some "decode failed: yaml: invalid document") :=
  ⟨((FindImages_no_partial_set sampleLibs [1, 2, 3]).2.2 [1]
      (Decoded.document (SampleDoc.workload ["x@bad"]))
      [Decoded.document (SampleDoc.workload ["b:v2", "a:v1"])] rfl rfl).2.2
      (SampleDoc.workload ["x@bad"]) "x@bad," "invalid image reference: x@bad"
      rfl rfl rfl rfl,
   ((FindImages_no_partial_set sampleLibs [1, 9, 3]).2.2 [1]
      (Decoded.failure "yaml: invalid document")
      [Decoded.document (SampleDoc.workload ["b:v2", "a:v1"])] rfl rfl).1
      "yaml: invalid document" rfl⟩

/-! ## filterEmpty: the claim -/

theorem filterEmpty_foldl : ∀ (ss result : List String),
    ss.foldl (fun result s => if s ≠ "" then result ++ [s] else result) result
      = result ++ ss.filter (fun s => decide (s ≠ "")) := by
  intro ss
  induction ss with
  | nil => intro result; simp
  | cons s ss ih =>
    intro result
    rw [List.foldl_cons, ih]
    by_cases hs : s = ""
    · simp [hs]
    · simp [hs]

theorem filterEmpty_eq_filter (ss : List String) :
    filterEmpty ss = ss.filter (fun s => decide (s ≠ "")) := by
  unfold filterEmpty
  rw [filterEmpty_foldl]
  rfl

theorem splitChars_append_sep (sep : Char) (rest : List Char) :
    ∀ (w : List Char), sep ∉ w →
      splitChars sep (w ++ sep :: rest) = w :: splitChars sep rest := by
  intro w
  induction w with
  | nil => intro _; simp [splitChars]
  | cons c w ih =>
    intro h
    have hc : c ≠ sep := fun heq => h (by simp [heq])
    have hw : sep ∉ w := fun hmem => h (List.mem_cons_of_mem _ hmem)
    have hstep : splitChars sep (c :: (w ++ sep :: rest))
        = match splitChars sep (w ++ sep :: rest) with
          | piece :: pieces => (c :: piece) :: pieces
          | [] => [[c]] := by
      rw [splitChars, if_neg hc]
    rw [List.cons_append, hstep, ih hw]

theorem splitChars_flatMap (sep : Char) :
    ∀ (ws : List (List Char)), (∀ w ∈ ws, sep ∉ w) →
      splitChars sep (ws.flatMap (fun w => w ++ [sep])) = ws ++ [[]] := by
  intro ws
  induction ws with
  | nil => intro _; rfl
  | cons w ws ih =>
    intro h
    rw [List.flatMap_cons, List.append_assoc, List.singleton_append,
      splitChars_append_sep sep _ w (h w (List.mem_cons_self _ _)),
      ih (fun u hu => h u (List.mem_cons_of_mem _ hu))]
    rfl

theorem rangeOutput_toList (imgs : List String) :
    (rangeOutput imgs).toList = (imgs.map String.toList).flatMap (fun w => w ++ [',']) := by
  unfold rangeOutput String.toList
  rw [String.data_join]
  induction imgs with
  | nil => rfl
  | cons i imgs ih =>
    simp only [List.map_cons, List.flatten_cons, List.flatMap_cons, ih]
    rfl

theorem Split_rangeOutput (imgs : List String) (h : ∀ i ∈ imgs, ',' ∉ i.toList) :
    Split (rangeOutput imgs) ',' = imgs ++ [""] := by
  unfold Split
  rw [rangeOutput_toList, splitChars_flatMap]
  · simp only [List.map_append, List.map_map, List.map_cons, List.map_nil]
    congr 1
    induction imgs with
    | nil => rfl
    | cons i imgs ih =>
      rw [List.map_cons, ih (fun j hj => h j (List.mem_cons_of_mem _ hj))]
      rfl
  · intro w hw
    obtain ⟨i, hi, rfl⟩ := List.mem_map.mp hw
    exact h i hi

/-- C11: `filterEmpty` returns exactly the elements of its argument other
than the empty string, in their order, and the empty list when there is none.
So for image strings that are not empty and hold no comma, splitting the text
the query writes (each string followed by a comma) at the commas and applying
`filterEmpty` gives the strings back; whatever the text, the empty one
included, `images.New` is handed no empty string. -/
theorem filterEmpty_keeps_nonempty :
    (∀ ss : List String, filterEmpty ss = ss.filter (fun s => decide (s ≠ ""))) ∧
    (∀ ss : List String, (∀ s ∈ ss, s = "") → filterEmpty ss = []) ∧
    (∀ imgs : List String, (∀ i ∈ imgs, i ≠ "" ∧ ',' ∉ i.toList) →
      filterEmpty (Split (rangeOutput imgs) ',') = imgs) ∧
    (∀ buf : String, "" ∉ filterEmpty (Split buf ',')) ∧
    filterEmpty (Split "" ',') = [] := by
  refine ⟨filterEmpty_eq_filter, ?_, ?_, ?_, ?_⟩
  · intro ss h
    rw [filterEmpty_eq_filter, List.filter_eq_nil_iff]
    intro s hs
    simp [h s hs]
  · intro imgs h
    rw [Split_rangeOutput imgs (fun i hi => (h i hi).2), filterEmpty_eq_filter,
      List.filter_append]
    have hall : imgs.filter (fun s => decide (s ≠ "")) = imgs :=
      List.filter_eq_self.mpr (fun i hi => by simpa using (h i hi).1)
    rw [hall]
    simp
  · intro buf hmem
    rw [filterEmpty_eq_filter] at hmem
    simpa using (List.mem_filter.mp hmem).2
  · rfl

/-- C11, on the output for the images `b:v2` and `a:v1`, and on an output
with an empty image string in it. -/
theorem filterEmpty_keeps_nonempty_witness :
    filterEmpty (Split "b:v2,a:v1," ',') = ["b:v2", "a:v1"] ∧
    filterEmpty ["", "a:v1", "", "b:v2"] = ["a:v1", "b:v2"] ∧
    filterEmpty ["", ""] = [] :=
  ⟨filterEmpty_keeps_nonempty.2.2.1 ["b:v2", "a:v1"] (by decide),
   (filterEmpty_keeps_nonempty.1 ["", "a:v1", "", "b:v2"]).trans (by decide),
   filterEmpty_keeps_nonempty.2.1 ["", ""] (by decide)⟩


end Sheaf
